import Mathlib

/-!
# Verification of the A* search engine (`astar.go`)

This file is a shallow embedding of the repository's core search engine:
the `Search` function of package `astar` together with the parts of Go's
`container/heap` that it uses (`Init`, `Push`, `Pop`, `Fix`, and the
internal sift functions `up` and `down`), specialized to the `states`
priority queue of the package.

Modelling conventions:

* Go `float64` costs and estimates are modelled as exact rationals `ℚ`.
  Every scenario treated here uses small integer values, on which IEEE
  double arithmetic is exact, so `ℚ` and `float64` agree.
* The caller-supplied `astar.Interface` is stateful in Go (`Move` sets a
  cursor, and `Finish`/`Successors`/`Cost` read it).  A deterministic
  policy is therefore a bundle of pure functions of the cursor state,
  collected in the `Policy` structure; `p.Move(s)` is the identity of the
  embedding (it only repositions the cursor, which is passed explicitly).
* The Go search loop can run forever on an infinite state space, and the
  path-reconstruction loop would run forever on a cyclic predecessor map,
  so both are embedded with an explicit fuel parameter; `none` means
  "the program has not terminated within `fuel` iterations".  All
  theorems about results are stated for runs that return `some`.
* The `state` record of the package carries an `index` field that Go's
  `container/heap` keeps equal to the entry's position in the backing
  array (`Swap` and `Push` maintain it, and it is read only by
  `heap.Fix`).  The embedding keeps the position implicit: an entry's
  index is its position in the list, and the single read of `.index`
  (`heap.Fix(&q, queuedState.index)`) becomes a `findIdx` lookup of the
  unique live entry with the given id.
* Go maps are embedded as lists: `explored` (a set of states),
  `queuedLinks` (the set of keys of the frontier-pointer map; the record
  a key points to is the unique live heap entry with that id), and
  `transitions` (an association list with unique keys; assignment
  replaces the binding of the key).
-/

namespace AStar

variable {S : Type} [Inhabited S]



/-- The caller-supplied state-space policy: the pure content of the Go
`astar.Interface` (`Start`, `Finish`, `Successors`, `Cost`, `Estimate`),
with the implicit cursor made an explicit first argument where the Go
method reads it. -/
structure Policy (S : Type) where
  start : S
  finish : S → Bool
  successors : S → List S
  cost : S → S → ℚ
  estimate : S → ℚ

/-- The `state` record of `astar.go` minus the `index` field (the index
is implicitly the entry's position in the heap list, exactly the
invariant Go's `container/heap` maintains for it). -/
structure Entry (S : Type) where
  id : S
  cost : ℚ
  estimate : ℚ
deriving DecidableEq

instance : Inhabited (Entry S) := ⟨⟨default, 0, 0⟩⟩

/-- The priority key of the `states` queue: `states.Less` compares
`cost + estimate`. -/
def key (e : Entry S) : ℚ := e.cost + e.estimate

/-- Read of the heap array at an index (total, with a default that is
never reached at the in-bounds indices the heap code uses). -/
def nth (q : List (Entry S)) (i : Nat) : Entry S := q.getD i default

/-- `states.Less n j`: `pq[n].cost+pq[n].estimate < pq[j].cost+pq[j].estimate`. -/
def eLess (q : List (Entry S)) (n j : Nat) : Bool :=
  decide (key (nth q n) < key (nth q j))

/-- `states.Swap n j`: exchange the entries at positions `n` and `j`
(both reads happen before either write, as in the Go tuple assignment).
The `index` bookkeeping of the Go `Swap` is implicit in the positions. -/
def eSwap (q : List (Entry S)) (n j : Nat) : List (Entry S) :=
  (q.set n (nth q j)).set j (nth q n)

/-- The smaller-child selection inside `container/heap`'s `down`:
`j := j1; if j2 := j1 + 1; j2 < n && h.Less(j2, j1) { j = j2 }`. -/
def childSel (q : List (Entry S)) (i n : Nat) : Nat :=
  if 2*i+2 < n ∧ eLess q (2*i+2) (2*i+1) = true then 2*i+2 else 2*i+1

/-- The loop of `container/heap`'s `down`, with a structural counter so
that the kernel can evaluate it.  The counter only bounds the number of
iterations; `heapDown` below starts it at the loop variant `n - i`,
which never runs out (the cursor `i` strictly increases and stays below
`n`), so the `fuel = 0` branch is never taken — see `heapDown_eq` for
the recurrence the function actually satisfies, which is exactly the Go
loop. -/
def heapDownFuel : Nat → List (Entry S) → Nat → Nat → List (Entry S) × Nat
  | fuel, q, i, n =>
    if 2*i+1 < n then
      match fuel with
      | 0 => (q, i)
      | fuel' + 1 =>
        let j := childSel q i n
        if eLess q j i = true then heapDownFuel fuel' (eSwap q i j) j n
        else (q, i)
    else (q, i)

/-- `container/heap`'s `down(h, i0, n)`: sift the entry at `i0` down
within the first `n` positions.  Returns the final resting index `i`
(Go returns the Boolean `i > i0`, recovered by the caller comparing). -/
def heapDown (q : List (Entry S)) (i n : Nat) : List (Entry S) × Nat :=
  heapDownFuel (n - i) q i n

/-- The loop of `container/heap`'s `up`, with a structural counter so
that the kernel can evaluate it; `heapUp` starts the counter at `j`,
the loop variant (the cursor strictly decreases), so the `fuel = 0`
branch is never taken — `heapUp_eq` states the Go recurrence. -/
def heapUpFuel : Nat → List (Entry S) → Nat → List (Entry S)
  | fuel, q, j =>
    if j = 0 then q
    else
      match fuel with
      | 0 => q
      | fuel' + 1 =>
        let i := (j-1)/2
        if eLess q j i = true then heapUpFuel fuel' (eSwap q i j) i else q

/-- `container/heap`'s `up(h, j)`: sift the entry at `j` up.  The Go
loop breaks when `i == j`, which happens exactly at `j = 0` (Go's
integer division gives `(0-1)/2 = 0`). -/
def heapUp (q : List (Entry S)) (j : Nat) : List (Entry S) :=
  heapUpFuel j q j

/-- `heap.Init(h)`: `for i := n/2 - 1; i >= 0; i-- { down(h, i, n) }`. -/
def heapInit (q : List (Entry S)) : List (Entry S) :=
  (List.range (q.length / 2)).reverse.foldl (fun acc i => (heapDown acc i q.length).1) q

/-- `heap.Push(h, x)`: append the entry, then `up(h, h.Len()-1)`. -/
def heapPush (q : List (Entry S)) (e : Entry S) : List (Entry S) :=
  heapUp (q ++ [e]) q.length

/-- `heap.Pop(h)`: `n := h.Len()-1; h.Swap(0, n); down(h, 0, n)`, then
the container's own `Pop` removes and returns the last element. -/
def heapPop (q : List (Entry S)) : Entry S × List (Entry S) :=
  let n := q.length - 1
  let q2 := (heapDown (eSwap q 0 n) 0 n).1
  (nth q2 n, q2.take n)

/-- `heap.Fix(h, i)`: `if !down(h, i, h.Len()) { up(h, i) }`. -/
def heapFix (q : List (Entry S)) (i : Nat) : List (Entry S) :=
  let r := heapDown q i q.length
  if r.2 > i then r.1 else heapUp r.1 i

variable [DecidableEq S]

/-- Lookup in an association list modelling a Go `map` (`transitions`). -/
def aLookup (l : List (S × S)) (k : S) : Option S :=
  match l with
  | [] => none
  | p :: t => if p.1 = k then some p.2 else aLookup t k

/-- Assignment `m[k] = v` on a Go map modelled as an association list
with unique keys: the binding of `k` is replaced, others are kept. -/
def mapSet (l : List (S × S)) (k v : S) : List (S × S) :=
  (k, v) :: l.filter (fun p => decide (p.1 ≠ k))

/-- `m[x] = true` on a Go `map[...]bool` used as a set (`explored`). -/
def setInsert (l : List S) (x : S) : List S :=
  if x ∈ l then l else l ++ [x]

/-- `delete(m, x)` on a Go map used as a set (`queuedLinks` keys). -/
def setErase (l : List S) (x : S) : List S :=
  l.filter (fun s => decide (s ≠ x))

/-- The Go value `ErrNotFound` (the only error value the package
defines: "final state is not reachable"). -/
inductive GoError where
  | notFound
deriving DecidableEq, Repr

/-- The triple `Search` returns: `(path, steps, err)` — on success
`(path, steps, nil)`, on failure `(nil, steps, ErrNotFound)`. -/
structure SearchResult (S : Type) where
  path : List S
  steps : List S
  err : Option GoError
deriving DecidableEq

/-- The local variables of the `Search` loop: the priority queue `q`,
the key set of `queuedLinks`, the `explored` set, the `transitions`
predecessor map and the `steps` trace. -/
structure LoopState (S : Type) where
  q : List (Entry S)
  links : List S
  explored : List S
  transitions : List (S × S)
  steps : List S
deriving DecidableEq

/-- The ids of the live frontier entries. -/
def qIds (st : LoopState S) : List S := st.q.map (·.id)

/-- The body of the successor loop of `Search` for one successor:
skip if explored; if a live frontier entry exists, relax it in place
and repair the heap when the tentative cost improves; otherwise push a
fresh entry, record the frontier link and the predecessor. -/
def processSucc (p : Policy S) (cur : Entry S) (st : LoopState S) (succ : S) :
    LoopState S :=
  if succ ∈ st.explored then st
  else
    let cost := cur.cost + p.cost cur.id succ
    if succ ∈ st.links then
      let i := st.q.findIdx (fun e => decide (e.id = succ))
      let e := nth st.q i
      if cost < e.cost then
        { st with
            q := heapFix (st.q.set i { e with cost := cost }) i
            transitions := mapSet st.transitions succ cur.id }
      else st
    else
      { st with
          q := heapPush st.q ⟨succ, cost, p.estimate succ⟩
          links := st.links ++ [succ]
          transitions := mapSet st.transitions succ cur.id }

/-- The whole successor loop: `for _, succ := range p.Successors()`. -/
def expand (p : Policy S) (cur : Entry S) (st : LoopState S) : LoopState S :=
  (p.successors cur.id).foldl (processSucc p cur) st

/-- Pop the minimum entry and do the per-iteration bookkeeping of the
loop head: `delete(queuedLinks, current.id)`, `explored[current.id] =
true`, `steps = append(steps, current.id)`. -/
def popState (p : Policy S) (st : LoopState S) : Entry S × LoopState S :=
  let pr := heapPop st.q
  (pr.1,
    { q := pr.2
      links := setErase st.links pr.1.id
      explored := setInsert st.explored pr.1.id
      transitions := st.transitions
      steps := st.steps ++ [pr.1.id] })

/-- The path-reconstruction loop of `Search`: walk the predecessor map
backward prepending each predecessor; stop at a state with no entry.
The Go loop can run forever on a cyclic map, hence the fuel. -/
def reconstructAux (trans : List (S × S)) : Nat → S → List S → Option (List S)
  | fuel, cur, path =>
    match aLookup trans cur with
    | none => some path
    | some prev =>
      match fuel with
      | 0 => none
      | fuel' + 1 => reconstructAux trans fuel' prev (prev :: path)

/-- The main loop of `Search`, with fuel bounding the number of
iterations (`none` = the Go loop has not returned within `fuel`). -/
def searchAux (p : Policy S) : Nat → LoopState S → Option (SearchResult S)
  | 0, _ => none
  | fuel + 1, st =>
    if st.q.isEmpty then some ⟨[], st.steps, some .notFound⟩
    else
      let pr := popState p st
      if p.finish pr.1.id then
        (reconstructAux pr.2.transitions fuel pr.1.id [pr.1.id]).map
          (fun path => ⟨path, pr.2.steps, none⟩)
      else
        searchAux p fuel (expand p pr.1 pr.2)

/-- The loop state at entry of the `Search` loop: the queue holds the
single start entry (`g = 0`, `h = Estimate(Start())`), the three maps
are empty. -/
def initState (p : Policy S) : LoopState S :=
  { q := heapInit [⟨p.start, 0, p.estimate p.start⟩]
    links := []
    explored := []
    transitions := []
    steps := [] }

/-- `astar.Search`, embedded with fuel. -/
def search (p : Policy S) (fuel : Nat) : Option (SearchResult S) :=
  searchAux p fuel (initState p)

/-- The loop state reached by one full non-final iteration (pop plus
successor expansion), used to state loop invariants. -/
def iterState (p : Policy S) (st : LoopState S) : LoopState S :=
  expand p (popState p st).1 (popState p st).2

/-- The loop state at the head of iteration `k` of the `Search` loop
started from `st` (iteration `0` is `st` itself): `k` applications of
`iterState`.  Used to name the run's own intermediate states — in
particular the `transitions` map held at the moment of success — in
theorem statements. -/
def stateAt (p : Policy S) (st : LoopState S) (k : Nat) : LoopState S :=
  (iterState p)^[k] st

/-- The weighted diamond of claim C1: two disjoint paths from `A` to
`D`, one through `B` with edge weights `1, 1`, one through `C` with
edge weights `1, 3`, and the zero heuristic. -/
inductive Node where
  | A | B | C | D
deriving DecidableEq, Inhabited

/-- The policy describing the weighted diamond of claim C1. -/
def diamondPolicy : Policy Node :=
  { start := .A
    finish := fun s => decide (s = .D)
    successors := fun s => match s with
      | .A => [.B, .C]
      | .B => [.D]
      | .C => [.D]
      | .D => []
    cost := fun a b => match a, b with
      | .A, .B => 1
      | .A, .C => 1
      | .B, .D => 1
      | .C, .D => 3
      | _, _ => 0
    estimate := fun _ => 0 }

/-! ### The main loop invariant (closed-list discipline) -/

/-- The invariant of the `Search` loop: the live frontier entries have
pairwise distinct ids, none of them is explored, the explored set and
the `steps` trace contain the same states, the trace has no duplicates,
and (except in the not-yet-iterated initial state, whose exact shape is
recorded) the `queuedLinks` key set is exactly the multiset of frontier
ids and the start state has been explored. -/
def QInv (p : Policy S) (st : LoopState S) : Prop :=
  (qIds st).Nodup ∧
  (∀ s ∈ qIds st, s ∉ st.explored) ∧
  (∀ s ∈ st.explored, s ∈ st.steps) ∧
  (∀ s ∈ st.steps, s ∈ st.explored) ∧
  st.steps.Nodup ∧
  (((qIds st).Perm st.links ∧ p.start ∈ st.explored) ∨
    (st.explored = [] ∧ st.q = [⟨p.start, 0, p.estimate p.start⟩] ∧
      st.links = [] ∧ st.steps = [] ∧ st.transitions = []))

instance (p : Policy S) (st : LoopState S) : Decidable (QInv p st) :=
  inferInstanceAs (Decidable (_ ∧ _ ∧ _ ∧ _ ∧ _ ∧ (_ ∨ _)))

/-! ### The binary-heap ordering invariant -/

/-- The min-heap property on the first `n` positions of the backing
array: every element is at least its parent (`container/heap`'s
`Less`-order, keyed by `cost + estimate`). -/
def IsMinHeapN (q : List (Entry S)) (n : Nat) : Prop :=
  ∀ c, c < n → 0 < c → key (nth q ((c-1)/2)) ≤ key (nth q c)

/-- The min-heap property of the whole queue. -/
def IsMinHeap (q : List (Entry S)) : Prop := IsMinHeapN q q.length

instance (q : List (Entry S)) (n : Nat) : Decidable (IsMinHeapN q n) :=
  inferInstanceAs (Decidable (∀ c, c < n → 0 < c →
    key (nth q ((c-1)/2)) ≤ key (nth q c)))

instance (q : List (Entry S)) : Decidable (IsMinHeap q) :=
  inferInstanceAs (Decidable (IsMinHeapN q q.length))

/-! ### The predecessor-map invariant -/

/-- The position of the first occurrence of a state in the exploration
trace; used as a well-founded rank for the predecessor chains. -/
def rankIn (l : List S) (x : S) : Nat := l.findIdx (fun s => decide (s = x))

/-- The invariant of the `transitions` predecessor map: every binding
maps a state back to an already-explored predecessor that listed it as
a successor, the start state never receives a binding, the ranks along
any chain strictly decrease (so chains are acyclic), and every explored
or enqueued state other than the start has a binding. -/
def TransInv (p : Policy S) (st : LoopState S) : Prop :=
  (∀ pr ∈ st.transitions, pr.2 ∈ st.steps ∧ pr.1 ≠ p.start ∧
    pr.1 ∈ p.successors pr.2 ∧
    (pr.1 ∈ st.steps → rankIn st.steps pr.2 < rankIn st.steps pr.1)) ∧
  (∀ s ∈ st.explored, s ≠ p.start → (aLookup st.transitions s).isSome) ∧
  (∀ s ∈ qIds st, s ≠ p.start → (aLookup st.transitions s).isSome)

instance (p : Policy S) (st : LoopState S) : Decidable (TransInv p st) :=
  inferInstanceAs (Decidable (_ ∧ _ ∧ _))

/-- The two-state policy `false → true` with an unreachable goal, used
as a concrete instance in witnesses. -/
def twoStatePolicy : Policy Bool :=
  { start := false
    finish := fun _ => false
    successors := fun _ => [true]
    cost := fun _ _ => 1
    estimate := fun _ => 0 }

/-- The loop state of `twoStatePolicy` after its first iteration. -/
def twoStateLoop : LoopState Bool :=
  { q := [⟨true, 1, 0⟩]
    links := [true]
    explored := [false]
    transitions := [(true, false)]
    steps := [false] }

/-! ### Claim C2 -/

/-- Reachability in the state space the policy describes: the start
state, closed under taking successors. -/
inductive Reach (p : Policy S) : S → Prop where
  | start : Reach p p.start
  | step {s t : S} : Reach p s → t ∈ p.successors s → Reach p t

/-- The reachability invariant: everything explored or enqueued is
reachable, and the successors of explored states are explored or
enqueued. -/
def RInv (p : Policy S) (st : LoopState S) : Prop :=
  (∀ s ∈ st.explored, Reach p s) ∧
  (∀ s ∈ qIds st, Reach p s) ∧
  (∀ s ∈ st.explored, ∀ t ∈ p.successors s, t ∈ st.explored ∨ t ∈ qIds st)

theorem childSel_gt (q : List (Entry S)) (i n : Nat) : i < childSel q i n := by
  unfold childSel; split <;> omega

theorem childSel_lt (q : List (Entry S)) {i n : Nat} (h : 2*i+1 < n) :
    childSel q i n < n := by
  unfold childSel; split <;> omega

theorem heapDownFuel_eq_heapDown (q : List (Entry S)) (i n : Nat) :
    ∀ fuel, n - i ≤ fuel → heapDownFuel fuel q i n = heapDown q i n := by
  suffices h : ∀ fuel fuel' q i, n - i ≤ fuel → n - i ≤ fuel' →
      heapDownFuel fuel q i n = heapDownFuel fuel' q i n by
    intro fuel hle
    exact h fuel (n - i) q i hle le_rfl
  intro fuel
  induction fuel with
  | zero =>
    intro fuel' q i h _
    rw [heapDownFuel.eq_def, heapDownFuel.eq_def]
    have : ¬ 2*i+1 < n := by omega
    simp [this]
  | succ m ih =>
    intro fuel' q i h h'
    rw [heapDownFuel.eq_def, heapDownFuel.eq_def]
    by_cases hc : 2*i+1 < n
    · obtain ⟨k, rfl⟩ : ∃ k, fuel' = k + 1 := ⟨fuel' - 1, by omega⟩
      simp only [hc, if_true]
      by_cases hl : eLess q (childSel q i n) i = true
      · simp only [hl, if_true]
        have hj1 := childSel_gt q i n
        have hj2 := childSel_lt q hc
        exact ih k _ _ (by omega) (by omega)
      · simp [hl]
    · simp [hc]

/-- The recurrence of Go's `down` loop: this is the defining equation a
direct transcription would have. -/
theorem heapDown_eq (q : List (Entry S)) (i n : Nat) :
    heapDown q i n =
      if 2*i+1 < n then
        (if eLess q (childSel q i n) i = true
          then heapDown (eSwap q i (childSel q i n)) (childSel q i n) n
          else (q, i))
      else (q, i) := by
  conv_lhs => rw [heapDown, heapDownFuel.eq_def]
  by_cases hc : 2*i+1 < n
  · obtain ⟨k, hk⟩ : ∃ k, n - i = k + 1 := ⟨n - i - 1, by omega⟩
    rw [hk]
    simp only [hc, if_true]
    by_cases hl : eLess q (childSel q i n) i = true
    · simp only [hl, if_true]
      have hj1 := childSel_gt q i n
      have hj2 := childSel_lt q hc
      exact heapDownFuel_eq_heapDown _ _ n k (by omega)
    · simp [hl]
  · simp [hc]

theorem heapUpFuel_eq_heapUp (q : List (Entry S)) (j : Nat) :
    ∀ fuel, j ≤ fuel → heapUpFuel fuel q j = heapUp q j := by
  suffices h : ∀ fuel fuel' q j, j ≤ fuel → j ≤ fuel' →
      heapUpFuel fuel q j = heapUpFuel fuel' q j by
    intro fuel hle
    exact h fuel j q j hle le_rfl
  intro fuel
  induction fuel with
  | zero =>
    intro fuel' q j h _
    have : j = 0 := by omega
    subst this
    rw [heapUpFuel.eq_def, heapUpFuel.eq_def]
    simp
  | succ m ih =>
    intro fuel' q j h h'
    rw [heapUpFuel.eq_def, heapUpFuel.eq_def]
    by_cases hj : j = 0
    · simp [hj]
    · obtain ⟨k, rfl⟩ : ∃ k, fuel' = k + 1 := ⟨fuel' - 1, by omega⟩
      simp only [hj, if_false]
      by_cases hl : eLess q j ((j-1)/2) = true
      · simp only [hl, if_true]
        exact ih k _ _ (by omega) (by omega)
      · simp [hl]

/-- The recurrence of Go's `up` loop: this is the defining equation a
direct transcription would have. -/
theorem heapUp_eq (q : List (Entry S)) (j : Nat) :
    heapUp q j =
      if j = 0 then q
      else
        (if eLess q j ((j-1)/2) = true then heapUp (eSwap q ((j-1)/2) j) ((j-1)/2)
          else q) := by
  conv_lhs => rw [heapUp, heapUpFuel.eq_def]
  by_cases hj : j = 0
  · simp [hj]
  · obtain ⟨k, rfl⟩ : ∃ k, j = k + 1 := ⟨j - 1, by omega⟩
    simp only [hj, if_false]
    by_cases hl : eLess q (k+1) ((k+1-1)/2) = true
    · simp only [Nat.add_sub_cancel] at hl ⊢
      simp only [hl, if_true]
      exact heapUpFuel_eq_heapUp _ _ k (by omega)
    · simp only [Nat.add_sub_cancel] at hl ⊢
      simp [hl]

/-! ### Fuel monotonicity

A run that returns within some fuel budget returns the same result with
any larger budget; smaller budgets can only return `none`.  This lets
claims about "the" result of a terminating Go run be stated for every
fuel value at once. -/

theorem reconstructAux_mono {trans : List (S × S)} :
    ∀ {fuel fuel' : Nat} {cur : S} {path res : List S},
      reconstructAux trans fuel cur path = some res → fuel ≤ fuel' →
      reconstructAux trans fuel' cur path = some res := by
  intro fuel
  induction fuel with
  | zero =>
    intro fuel' cur path res h _
    unfold reconstructAux at h ⊢
    cases hl : aLookup trans cur with
    | none => rw [hl] at h; exact h
    | some prev => rw [hl] at h; exact absurd h (by simp)
  | succ n ih =>
    intro fuel' cur path res h hle
    unfold reconstructAux at h ⊢
    cases hl : aLookup trans cur with
    | none => rw [hl] at h; exact h
    | some prev =>
      rw [hl] at h
      obtain ⟨m, rfl⟩ : ∃ m, fuel' = m + 1 := ⟨fuel' - 1, by omega⟩
      exact ih h (by omega)

theorem searchAux_mono {p : Policy S} :
    ∀ {fuel fuel' : Nat} {st : LoopState S} {r : SearchResult S},
      searchAux p fuel st = some r → fuel ≤ fuel' →
      searchAux p fuel' st = some r := by
  intro fuel
  induction fuel with
  | zero => intro _ _ _ h _; exact absurd h (by simp [searchAux])
  | succ n ih =>
    intro fuel' st r h hle
    obtain ⟨m, rfl⟩ : ∃ m, fuel' = m + 1 := ⟨fuel' - 1, by omega⟩
    rw [searchAux] at h ⊢
    by_cases hq : st.q.isEmpty
    · simpa [hq] using (by simpa [hq] using h)
    · simp only [hq, if_false] at h ⊢
      by_cases hf : p.finish (popState p st).1.id
      · simp only [hf, if_true] at h ⊢
        cases hr : reconstructAux (popState p st).2.transitions n
            (popState p st).1.id [(popState p st).1.id] with
        | none => rw [hr] at h; exact absurd h (by simp)
        | some path =>
          rw [hr] at h
          rw [reconstructAux_mono hr (by omega : n ≤ m)]
          exact h
      · simp only [hf, if_false] at h ⊢
        exact ih h (by omega)

theorem search_mono {p : Policy S} {fuel fuel' : Nat} {r : SearchResult S}
    (h : search p fuel = some r) (hle : fuel ≤ fuel') :
    search p fuel' = some r :=
  searchAux_mono h hle

/-! ### Claim C1 -/

/-- C1: on the weighted diamond with zero heuristic, `Search` returns
the cost-2 path `A,B,D` (with explored trace `A,B,C,D` and no error),
and no run, whatever its fuel budget, ever returns the cost-4 path
`A,C,D`. -/
theorem diamond_returns_cheap_path :
    search diamondPolicy 6 =
      some ⟨[Node.A, Node.B, Node.D], [Node.A, Node.B, Node.C, Node.D], none⟩ ∧
    ∀ fuel r, search diamondPolicy fuel = some r →
      r.path = [Node.A, Node.B, Node.D] ∧ r.path ≠ [Node.A, Node.C, Node.D] := by
  have h6 : search diamondPolicy 6 =
      some ⟨[Node.A, Node.B, Node.D], [Node.A, Node.B, Node.C, Node.D], none⟩ := by
    with_unfolding_all decide
  refine ⟨h6, fun fuel r hr => ?_⟩
  have hr' : search diamondPolicy (max fuel 6) = some r :=
    search_mono hr (le_max_left _ _)
  have h6' : search diamondPolicy (max fuel 6) =
      some ⟨[Node.A, Node.B, Node.D], [Node.A, Node.B, Node.C, Node.D], none⟩ :=
    search_mono h6 (le_max_right _ _)
  rw [hr'] at h6'
  cases h6'
  exact ⟨rfl, by decide⟩

/-- Witness for C1 at a concrete run. -/
theorem diamond_returns_cheap_path_witness :
    ∃ r, search diamondPolicy 7 = some r ∧ r.path = [Node.A, Node.B, Node.D] := by
  refine ⟨⟨[Node.A, Node.B, Node.D], [Node.A, Node.B, Node.C, Node.D], none⟩,
    by with_unfolding_all decide, ?_⟩
  exact (diamond_returns_cheap_path.2 7 _ (by with_unfolding_all decide)).1

/-! ### Per-iteration bookkeeping facts -/

theorem processSucc_explored (p : Policy S) (cur : Entry S) (st : LoopState S)
    (succ : S) : (processSucc p cur st succ).explored = st.explored := by
  simp only [processSucc]
  split_ifs <;> rfl

theorem processSucc_steps (p : Policy S) (cur : Entry S) (st : LoopState S)
    (succ : S) : (processSucc p cur st succ).steps = st.steps := by
  simp only [processSucc]
  split_ifs <;> rfl

theorem foldl_processSucc_explored (p : Policy S) (cur : Entry S) :
    ∀ (l : List S) (st : LoopState S),
      (l.foldl (processSucc p cur) st).explored = st.explored := by
  intro l
  induction l with
  | nil => intro st; rfl
  | cons x xs ih =>
    intro st
    rw [List.foldl_cons, ih, processSucc_explored]

theorem foldl_processSucc_steps (p : Policy S) (cur : Entry S) :
    ∀ (l : List S) (st : LoopState S),
      (l.foldl (processSucc p cur) st).steps = st.steps := by
  intro l
  induction l with
  | nil => intro st; rfl
  | cons x xs ih =>
    intro st
    rw [List.foldl_cons, ih, processSucc_steps]

theorem expand_explored (p : Policy S) (cur : Entry S) (st : LoopState S) :
    (expand p cur st).explored = st.explored :=
  foldl_processSucc_explored p cur _ st

theorem expand_steps (p : Policy S) (cur : Entry S) (st : LoopState S) :
    (expand p cur st).steps = st.steps :=
  foldl_processSucc_steps p cur _ st

theorem heapInit_singleton (e : Entry S) : heapInit [e] = [e] := by
  with_unfolding_all rfl

theorem heapPop_singleton (e : Entry S) : heapPop [e] = (e, []) := by
  with_unfolding_all rfl

/-! ### Claim C6 -/

theorem search_of_finish_start (p : Policy S) (h : p.finish p.start = true)
    (fuel : Nat) : search p (fuel + 1) = some ⟨[p.start], [p.start], none⟩ := by
  have hps : popState p
      { q := [(⟨p.start, 0, p.estimate p.start⟩ : Entry S)], links := [],
        explored := [], transitions := [], steps := [] } =
      (⟨p.start, 0, p.estimate p.start⟩,
        { q := [], links := [], explored := [p.start], transitions := [],
          steps := [p.start] }) := by
    rw [popState, heapPop_singleton]
    rfl
  rw [search, initState, heapInit_singleton, searchAux]
  simp only [List.isEmpty_cons, Bool.false_eq_true, if_false, hps, h, if_true,
    reconstructAux, aLookup]
  rfl

/-- C6: if the goal predicate already holds at the start state, `Search`
returns the one-element path `[start]`, the one-element explored trace
`[start]`, and no error — and the result does not depend on the policy's
successor function at all (the returned value is the same for every
choice of `successors`), which is the embedded form of "no successors
are ever requested from the policy". -/
theorem start_is_goal_trivial (p : Policy S) (h : p.finish p.start = true)
    (fuel : Nat) :
    search p (fuel + 1) = some ⟨[p.start], [p.start], none⟩ ∧
    ∀ succs : S → List S,
      search { p with successors := succs } (fuel + 1) =
        some ⟨[p.start], [p.start], none⟩ :=
  ⟨search_of_finish_start p h fuel,
    fun succs => search_of_finish_start { p with successors := succs } h fuel⟩

/-- Witness for C6 on a concrete one-state policy. -/
theorem start_is_goal_trivial_witness :
    search { start := true, finish := fun _ => true, successors := fun _ => [],
             cost := fun _ _ => 1, estimate := fun _ => 0 : Policy Bool } 3 =
      some ⟨[true], [true], none⟩ :=
  (start_is_goal_trivial
    { start := true, finish := fun _ => true, successors := fun _ => [],
      cost := fun _ _ => 1, estimate := fun _ => 0 } rfl 2).1

/-! ### Claim C9 -/

/-- C9: `Search` is deterministic — two policies with the same start,
goal predicate, successor function (same sequences in the same order),
cost and estimate functions produce identical results (same path, same
explored trace, same outcome) for every fuel budget. -/
theorem search_deterministic (p q : Policy S)
    (h1 : p.start = q.start) (h2 : p.finish = q.finish)
    (h3 : p.successors = q.successors) (h4 : p.cost = q.cost)
    (h5 : p.estimate = q.estimate) :
    ∀ fuel, search p fuel = search q fuel := by
  cases p
  cases q
  simp only at h1 h2 h3 h4 h5
  subst h1; subst h2; subst h3; subst h4; subst h5
  intro fuel
  rfl

/-- Witness for C9. -/
theorem search_deterministic_witness :
    search diamondPolicy 6 = search diamondPolicy 6 :=
  search_deterministic diamondPolicy diamondPolicy rfl rfl rfl rfl rfl 6

/-! ### Claim C7 -/

theorem searchAux_zero (p : Policy S) (st : LoopState S) :
    searchAux p 0 st = none := rfl

theorem popState_steps (p : Policy S) (st : LoopState S) :
    (popState p st).2.steps = st.steps ++ [(popState p st).1.id] := rfl

theorem searchAux_err_spec (p : Policy S) :
    ∀ (fuel : Nat) (st : LoopState S) (r : SearchResult S),
      searchAux p fuel st = some r →
      (∀ s ∈ st.steps, p.finish s = false) →
      ((r.err = some GoError.notFound ↔ ∀ s ∈ r.steps, p.finish s = false) ∧
       (r.err = none ∨ r.err = some GoError.notFound) ∧
       (r.err = some GoError.notFound → r.path = [])) := by
  intro fuel
  induction fuel with
  | zero =>
    intro st r h _
    exact absurd h (by simp [searchAux_zero])
  | succ n ih =>
    intro st r h hsteps
    rw [searchAux] at h
    by_cases hq : st.q.isEmpty
    · simp only [hq, if_true, Option.some.injEq] at h
      subst h
      exact ⟨by simpa using hsteps, Or.inr rfl, fun _ => rfl⟩
    · simp only [hq, Bool.false_eq_true, if_false] at h
      by_cases hf : p.finish (popState p st).1.id = true
      · simp only [hf, if_true] at h
        cases hrec : reconstructAux (popState p st).2.transitions n
            (popState p st).1.id [(popState p st).1.id] with
        | none => rw [hrec] at h; exact absurd h (by simp)
        | some path =>
          rw [hrec] at h
          simp only [Option.map_some', Option.some.injEq] at h
          subst h
          refine ⟨?_, Or.inl rfl, by simp⟩
          constructor
          · intro hcontra
            exact absurd hcontra (by simp)
          · intro hall
            have hmem : (popState p st).1.id ∈ (popState p st).2.steps := by
              rw [popState_steps]
              exact List.mem_append_right _ (List.mem_singleton_self _)
            have := hall (popState p st).1.id hmem
            rw [hf] at this
            exact absurd this (by simp)
      · simp only [hf, Bool.false_eq_true, if_false] at h
        have hsteps' : ∀ s ∈ (expand p (popState p st).1 (popState p st).2).steps,
            p.finish s = false := by
          rw [expand_steps, popState_steps]
          intro s hs
          rcases List.mem_append.1 hs with hs | hs
          · exact hsteps s hs
          · rcases List.mem_singleton.1 hs with rfl
            simpa using hf
        exact ih _ r h hsteps'

/-- C7: for every terminating run, the error is non-nil exactly when no
popped state (steps records exactly the popped states, in order)
satisfied the goal predicate, i.e. the frontier was exhausted without
reaching the goal; every non-nil error is the single value
`ErrNotFound`; and in the error case the returned path is empty while
the explored trace accumulated so far is still returned in the result. -/
theorem err_iff_no_goal_popped (p : Policy S) (fuel : Nat) (r : SearchResult S)
    (h : search p fuel = some r) :
    (r.err = some GoError.notFound ↔ ∀ s ∈ r.steps, p.finish s = false) ∧
    ∀ e, r.err = some e → e = GoError.notFound ∧ r.path = [] := by
  have hspec := searchAux_err_spec p fuel (initState p) r h
    (by intro s hs; exact absurd hs (by simp [initState]))
  refine ⟨hspec.1, fun e he => ?_⟩
  cases e
  exact ⟨rfl, hspec.2.2 he⟩

/-- Witness for C7 on a policy whose goal is unreachable: the two-state
space `{false, true}` with no state satisfying the goal. -/
theorem err_iff_no_goal_popped_witness :
    ∃ r, search { start := false, finish := fun _ => false,
                  successors := fun _ => [true], cost := fun _ _ => 1,
                  estimate := fun _ => 0 : Policy Bool } 4 = some r ∧
      (r.err = some GoError.notFound ↔
        ∀ s ∈ r.steps,
          ({ start := false, finish := fun _ => false,
             successors := fun _ => [true], cost := fun _ _ => 1,
             estimate := fun _ => 0 : Policy Bool }).finish s = false) := by
  refine ⟨⟨[], [false, true], some GoError.notFound⟩, by with_unfolding_all decide, ?_⟩
  exact (err_iff_no_goal_popped _ 4 _ (by with_unfolding_all decide)).1

/-! ### Index and permutation facts about the heap primitives -/

theorem nth_eq_getElem?_getD (q : List (Entry S)) (i : Nat) :
    nth q i = (q[i]?).getD default := by
  by_cases h : i < q.length
  · rw [nth, List.getD_eq_getElem q default h, List.getElem?_eq_getElem h]
    rfl
  · rw [nth, List.getD_eq_default q default (by omega),
      List.getElem?_eq_none (by omega)]
    rfl

theorem nth_set_self (q : List (Entry S)) (i : Nat) (e : Entry S)
    (h : i < q.length) : nth (q.set i e) i = e := by
  rw [nth_eq_getElem?_getD, List.getElem?_set]
  simp [h]

theorem nth_set_ne (q : List (Entry S)) (i k : Nat) (e : Entry S)
    (h : i ≠ k) : nth (q.set i e) k = nth q k := by
  rw [nth_eq_getElem?_getD, nth_eq_getElem?_getD, List.getElem?_set]
  simp [h]

theorem set_nth_self (q : List (Entry S)) (i : Nat) :
    q.set i (nth q i) = q := by
  apply List.ext_getElem?
  intro n
  rw [List.getElem?_set]
  by_cases h : i = n
  · subst h
    by_cases hl : i < q.length
    · simp [hl, nth, List.getD_eq_getElem q default hl,
        List.getElem?_eq_getElem hl]
    · simp [hl, List.getElem?_eq_none (by omega : q.length ≤ i)]
  · simp [h]

theorem length_eSwap (q : List (Entry S)) (i j : Nat) :
    (eSwap q i j).length = q.length := by
  rw [eSwap, List.length_set, List.length_set]

theorem nth_eSwap_snd (q : List (Entry S)) (i j : Nat) (hj : j < q.length) :
    nth (eSwap q i j) j = nth q i := by
  rw [eSwap, nth_set_self _ _ _ (by rw [List.length_set]; exact hj)]

theorem nth_eSwap_fst (q : List (Entry S)) (i j : Nat) (hi : i < q.length)
    (hne : i ≠ j) : nth (eSwap q i j) i = nth q j := by
  rw [eSwap, nth_set_ne _ _ _ _ (Ne.symm hne), nth_set_self _ _ _ hi]

theorem nth_eSwap_other (q : List (Entry S)) (i j k : Nat)
    (hik : i ≠ k) (hjk : j ≠ k) : nth (eSwap q i j) k = nth q k := by
  rw [eSwap, nth_set_ne _ _ _ _ hjk, nth_set_ne _ _ _ _ hik]

theorem perm_getD_cons_set {α : Type _} (d x : α) :
    ∀ (l : List α) (k : Nat), k < l.length →
      (l.getD k d :: l.set k x).Perm (x :: l) := by
  intro l
  induction l with
  | nil => intro k hk; simp at hk
  | cons y ys ih =>
    intro k hk
    cases k with
    | zero => exact List.Perm.swap x y ys
    | succ k =>
      have h1 : (y :: ys).getD (k+1) d = ys.getD k d := rfl
      have h2 : (y :: ys).set (k+1) x = y :: ys.set k x := rfl
      rw [h1, h2]
      have s1 : (ys.getD k d :: y :: ys.set k x).Perm
          (y :: ys.getD k d :: ys.set k x) := List.Perm.swap y (ys.getD k d) _
      have s2 : (y :: ys.getD k d :: ys.set k x).Perm (y :: x :: ys) :=
        (ih k (by simpa using hk)).cons y
      have s3 : (y :: x :: ys).Perm (x :: y :: ys) := List.Perm.swap x y ys
      exact (s1.trans s2).trans s3

theorem eSwap_perm (q : List (Entry S)) (i j : Nat) (hi : i < q.length)
    (hj : j < q.length) : (eSwap q i j).Perm q := by
  by_cases hij : i = j
  · subst hij
    rw [eSwap, List.set_set, set_nth_self]
  · have hj' : j < (q.set i (nth q j)).length := by
      rw [List.length_set]; exact hj
    have hp := perm_getD_cons_set default (nth q i) (q.set i (nth q j)) j hj'
    have hgd : (q.set i (nth q j)).getD j default = nth q j :=
      nth_set_ne q i j (nth q j) hij
    rw [hgd] at hp
    have hp2 := perm_getD_cons_set default (nth q j) q i hi
    have hgd2 : q.getD i default = nth q i := rfl
    rw [hgd2] at hp2
    exact ((hp.trans hp2)).cons_inv

theorem heapDown_spec (n : Nat) :
    ∀ (m : Nat) (q : List (Entry S)) (i : Nat), n - i ≤ m → n ≤ q.length →
      (heapDown q i n).1.Perm q ∧
      (∀ k, n ≤ k → nth (heapDown q i n).1 k = nth q k) := by
  intro m
  induction m with
  | zero =>
    intro q i hm hn
    rw [heapDown_eq]
    have : ¬ 2*i+1 < n := by omega
    simp [this]
  | succ m ih =>
    intro q i hm hn
    rw [heapDown_eq]
    by_cases hc : 2*i+1 < n
    · simp only [hc, if_true]
      by_cases hl : eLess q (childSel q i n) i = true
      · simp only [hl, if_true]
        have hj1 := childSel_gt q i n
        have hj2 := childSel_lt q hc
        have hperm := eSwap_perm q i (childSel q i n) (by omega) (by omega)
        have hrec := ih (eSwap q i (childSel q i n)) (childSel q i n)
          (by omega) (by rw [length_eSwap]; omega)
        refine ⟨hrec.1.trans hperm, fun k hk => ?_⟩
        rw [hrec.2 k hk, nth_eSwap_other _ _ _ _ (by omega) (by omega)]
      · simp [hl]
    · simp [hc]

theorem heapDown_perm (q : List (Entry S)) (i n : Nat) (hn : n ≤ q.length) :
    (heapDown q i n).1.Perm q :=
  (heapDown_spec n (n - i) q i le_rfl hn).1

theorem heapUp_perm : ∀ (j : Nat) (q : List (Entry S)), j < q.length →
    (heapUp q j).Perm q := by
  intro j
  induction j using Nat.strong_induction_on with
  | _ j ih =>
    intro q hj
    rw [heapUp_eq]
    by_cases h0 : j = 0
    · simp [h0]
    · simp only [h0, if_false]
      by_cases hl : eLess q j ((j-1)/2) = true
      · simp only [hl, if_true]
        have hi : (j-1)/2 < j := by omega
        have hperm := eSwap_perm q ((j-1)/2) j (by omega) hj
        exact (ih _ hi _ (by rw [length_eSwap]; omega)).trans hperm
      · simp [hl]

theorem heapPush_perm (q : List (Entry S)) (e : Entry S) :
    (heapPush q e).Perm (e :: q) := by
  have h := heapUp_perm q.length (q ++ [e]) (by simp)
  rw [heapPush]
  exact h.trans (List.perm_append_singleton e q)

theorem heapFix_perm (q : List (Entry S)) (i : Nat) (hi : i < q.length) :
    (heapFix q i).Perm q := by
  rw [heapFix]
  have hdown := heapDown_perm q i q.length le_rfl
  by_cases hmove : (heapDown q i q.length).2 > i
  · simp only [hmove, if_true]
    exact hdown
  · simp only [hmove, if_false]
    exact (heapUp_perm i _ (by rw [hdown.length_eq]; exact hi)).trans hdown

theorem nth_eq_getElem (q : List (Entry S)) (i : Nat) (h : i < q.length) :
    nth q i = q[i] :=
  List.getD_eq_getElem q default h

theorem set_getD_self {α : Type _} (l : List α) (i : Nat) (d : α) :
    l.set i (l.getD i d) = l := by
  apply List.ext_getElem?
  intro n
  rw [List.getElem?_set]
  by_cases h : i = n
  · subst h
    by_cases hl : i < l.length
    · simp [hl, List.getD_eq_getElem l d hl, List.getElem?_eq_getElem hl]
    · simp [hl, List.getElem?_eq_none (by omega : l.length ≤ i)]
  · simp [h]

theorem heapPop_eq (q : List (Entry S)) :
    heapPop q =
      (nth (heapDown (eSwap q 0 (q.length - 1)) 0 (q.length - 1)).1 (q.length - 1),
        (heapDown (eSwap q 0 (q.length - 1)) 0 (q.length - 1)).1.take (q.length - 1)) :=
  rfl

theorem heapPop_spec (q : List (Entry S)) (hq : q ≠ []) :
    ((heapPop q).1 :: (heapPop q).2).Perm q := by
  have hlen : 0 < q.length := List.length_pos.2 hq
  rw [heapPop_eq]
  have h1 : (eSwap q 0 (q.length - 1)).Perm q :=
    eSwap_perm q 0 (q.length - 1) (by omega) (by omega)
  have h2 := heapDown_perm (eSwap q 0 (q.length - 1)) 0 (q.length - 1)
    (by rw [length_eSwap]; omega)
  have hq2 : (heapDown (eSwap q 0 (q.length - 1)) 0 (q.length - 1)).1.length
      = q.length := by
    rw [h2.length_eq, length_eSwap]
  have hfull : (heapDown (eSwap q 0 (q.length - 1)) 0 (q.length - 1)).1
      = (heapDown (eSwap q 0 (q.length - 1)) 0 (q.length - 1)).1.take (q.length - 1)
        ++ [nth (heapDown (eSwap q 0 (q.length - 1)) 0 (q.length - 1)).1 (q.length - 1)] := by
    have htake := List.take_succ
      (l := (heapDown (eSwap q 0 (q.length - 1)) 0 (q.length - 1)).1) (n := q.length - 1)
    have hlt : q.length - 1 <
        (heapDown (eSwap q 0 (q.length - 1)) 0 (q.length - 1)).1.length := by omega
    rw [List.getElem?_eq_getElem hlt] at htake
    have hall : (heapDown (eSwap q 0 (q.length - 1)) 0 (q.length - 1)).1.take
        (q.length - 1 + 1) = (heapDown (eSwap q 0 (q.length - 1)) 0 (q.length - 1)).1 :=
      List.take_of_length_le (by omega)
    rw [hall] at htake
    rw [nth_eq_getElem _ _ hlt]
    simpa using htake
  have hperm : ((nth (heapDown (eSwap q 0 (q.length - 1)) 0 (q.length - 1)).1 (q.length - 1))
      :: (heapDown (eSwap q 0 (q.length - 1)) 0 (q.length - 1)).1.take (q.length - 1)).Perm
      (heapDown (eSwap q 0 (q.length - 1)) 0 (q.length - 1)).1 := by
    conv_rhs => rw [hfull]
    exact (List.perm_append_singleton _ _).symm
  exact (hperm.trans h2).trans h1

/-! ### Association-list (Go map) facts -/

theorem aLookup_mem : ∀ {l : List (S × S)} {k v : S},
    aLookup l k = some v → (k, v) ∈ l := by
  intro l
  induction l with
  | nil => intro k v h; simp [aLookup] at h
  | cons p t ih =>
    intro k v h
    rw [aLookup] at h
    by_cases hp : p.1 = k
    · simp only [hp, if_true, Option.some.injEq] at h
      subst hp
      subst h
      exact List.mem_cons_self _ _
    · simp only [hp, if_false] at h
      exact List.mem_cons_of_mem _ (ih h)

theorem aLookup_mapSet_self (l : List (S × S)) (k v : S) :
    aLookup (mapSet l k v) k = some v := by
  rw [mapSet, aLookup]
  simp

theorem aLookup_mapSet_ne (l : List (S × S)) (k v k' : S) (h : k' ≠ k) :
    aLookup (mapSet l k v) k' = aLookup l k' := by
  rw [mapSet, aLookup]
  simp only [Ne.symm h, if_false]
  induction l with
  | nil => rfl
  | cons p t ih =>
    rw [List.filter_cons]
    by_cases hp : p.1 = k
    · have : decide (p.1 ≠ k) = false := by simp [hp]
      rw [this]
      simp only [Bool.false_eq_true, if_false]
      rw [ih, aLookup]
      have : ¬ p.1 = k' := by rw [hp]; exact Ne.symm h
      simp [this]
    · have : decide (p.1 ≠ k) = true := by simp [hp]
      rw [this]
      simp only [if_true]
      rw [aLookup, aLookup]
      by_cases hpk : p.1 = k'
      · simp [hpk]
      · simp only [hpk, if_false]
        exact ih

theorem mem_mapSet {l : List (S × S)} {k v : S} {pr : S × S}
    (h : pr ∈ mapSet l k v) : pr = (k, v) ∨ (pr ∈ l ∧ pr.1 ≠ k) := by
  rw [mapSet] at h
  rcases List.mem_cons.1 h with h | h
  · exact Or.inl h
  · right
    have := List.mem_filter.1 h
    exact ⟨this.1, by simpa using this.2⟩

theorem aLookup_isSome_mapSet (l : List (S × S)) (k v s : S)
    (h : (aLookup l s).isSome) : (aLookup (mapSet l k v) s).isSome := by
  by_cases hs : s = k
  · subst hs
    rw [aLookup_mapSet_self]
    rfl
  · rwa [aLookup_mapSet_ne _ _ _ _ hs]

/-! ### The effect of one successor-processing step -/

theorem qIds_perm_of_entry_perm {q q' : List (Entry S)} (h : q'.Perm q) :
    (q'.map (·.id)).Perm (q.map (·.id)) :=
  h.map _

/-- Case analysis of `processSucc`: the three branches of the successor
loop body and what each does to the queue ids, the `queuedLinks` key
set, and the `transitions` map. -/
theorem processSucc_cases (p : Policy S) (cur : Entry S) (st : LoopState S)
    (succ : S) (hnodup : (qIds st).Nodup) (hlinks : (qIds st).Perm st.links) :
    (((processSucc p cur st succ).q.map (·.id)).Perm (qIds st) ∧
        (processSucc p cur st succ).links = st.links ∨
      ((processSucc p cur st succ).q.map (·.id)).Perm (succ :: qIds st) ∧
        succ ∉ qIds st ∧ succ ∉ st.explored ∧
        (processSucc p cur st succ).links = st.links ++ [succ]) ∧
    ((succ ∈ st.explored ∨ succ ∈ (processSucc p cur st succ).q.map (·.id)) ∧
      (succ ∉ st.explored → succ ∉ qIds st →
        aLookup (processSucc p cur st succ).transitions succ = some cur.id)) ∧
    ((processSucc p cur st succ).transitions = st.transitions ∨
      (succ ∉ st.explored ∧
        (processSucc p cur st succ).transitions = mapSet st.transitions succ cur.id)) := by
  by_cases hexp : succ ∈ st.explored
  · have heq : processSucc p cur st succ = st := by
      rw [processSucc]
      simp [hexp]
    rw [heq]
    exact ⟨Or.inl ⟨List.Perm.refl _, rfl⟩,
      ⟨Or.inl hexp, fun hne _ => absurd hexp hne⟩, Or.inl rfl⟩
  · by_cases hq : succ ∈ st.links
    · -- live frontier entry: relax in place or leave untouched
      have hmem : succ ∈ qIds st := (hlinks.mem_iff).2 hq
      have hfind : st.q.findIdx (fun e => decide (e.id = succ)) < st.q.length := by
        rw [List.findIdx_lt_length]
        obtain ⟨e, he, hid⟩ := List.mem_map.1 hmem
        exact ⟨e, he, by simp [hid]⟩
      by_cases hlt : cur.cost + p.cost cur.id succ
          < (nth st.q (st.q.findIdx (fun e => decide (e.id = succ)))).cost
      · have heq : processSucc p cur st succ =
            { st with
                q := heapFix (st.q.set (st.q.findIdx (fun e => decide (e.id = succ)))
                  { nth st.q (st.q.findIdx (fun e => decide (e.id = succ))) with
                      cost := cur.cost + p.cost cur.id succ })
                  (st.q.findIdx (fun e => decide (e.id = succ)))
                transitions := mapSet st.transitions succ cur.id } := by
          rw [processSucc]
          simp [hexp, hq, hlt]
        have hid : (nth st.q (st.q.findIdx (fun e => decide (e.id = succ)))).id
            = succ := by
          rw [nth_eq_getElem _ _ hfind]
          have := List.findIdx_getElem (w := hfind)
          simpa using this
        have hids : ((heapFix (st.q.set (st.q.findIdx (fun e => decide (e.id = succ)))
              { nth st.q (st.q.findIdx (fun e => decide (e.id = succ))) with
                  cost := cur.cost + p.cost cur.id succ })
              (st.q.findIdx (fun e => decide (e.id = succ)))).map (·.id)).Perm
            (qIds st) := by
          have hfixp := heapFix_perm
            (st.q.set (st.q.findIdx (fun e => decide (e.id = succ)))
              { nth st.q (st.q.findIdx (fun e => decide (e.id = succ))) with
                  cost := cur.cost + p.cost cur.id succ })
            (st.q.findIdx (fun e => decide (e.id = succ)))
            (by rw [List.length_set]; exact hfind)
          have hmap := qIds_perm_of_entry_perm hfixp
          have hlen' : st.q.findIdx (fun e => decide (e.id = succ))
              < (st.q.map (·.id)).length := by
            rw [List.length_map]; exact hfind
          have hval : (st.q.map (·.id)).getD
              (st.q.findIdx (fun e => decide (e.id = succ))) succ
              = ({ nth st.q (st.q.findIdx (fun e => decide (e.id = succ))) with
                  cost := cur.cost + p.cost cur.id succ } : Entry S).id := by
            rw [List.getD_eq_getElem _ _ hlen', List.getElem_map]
            show _ = (nth st.q (st.q.findIdx (fun e => decide (e.id = succ)))).id
            rw [nth_eq_getElem _ _ hfind]
          have hsetmap : ((st.q.set (st.q.findIdx (fun e => decide (e.id = succ)))
              { nth st.q (st.q.findIdx (fun e => decide (e.id = succ))) with
                  cost := cur.cost + p.cost cur.id succ }).map (·.id)) = qIds st := by
            rw [List.map_set, ← hval]
            exact set_getD_self _ _ _
          rw [hsetmap] at hmap
          exact hmap
        rw [heq]
        refine ⟨Or.inl ⟨hids, rfl⟩,
          ⟨Or.inr ((hids.mem_iff).2 hmem), fun _ hni => absurd hmem hni⟩,
          Or.inr ⟨hexp, rfl⟩⟩
      · have heq : processSucc p cur st succ = st := by
          rw [processSucc]
          simp [hexp, hq, hlt]
        rw [heq]
        exact ⟨Or.inl ⟨List.Perm.refl _, rfl⟩,
          ⟨Or.inr hmem, fun _ hni => absurd hmem hni⟩, Or.inl rfl⟩
    · -- fresh state: push a new frontier entry
      have heq : processSucc p cur st succ =
          { st with
              q := heapPush st.q ⟨succ, cur.cost + p.cost cur.id succ, p.estimate succ⟩
              links := st.links ++ [succ]
              transitions := mapSet st.transitions succ cur.id } := by
        rw [processSucc]
        simp [hexp, hq]
      have hpush := qIds_perm_of_entry_perm
        (heapPush_perm st.q ⟨succ, cur.cost + p.cost cur.id succ, p.estimate succ⟩)
      have hids : ((heapPush st.q
            ⟨succ, cur.cost + p.cost cur.id succ, p.estimate succ⟩).map (·.id)).Perm
          (succ :: qIds st) := hpush
      have hnot : succ ∉ qIds st := fun hmem => hq ((hlinks.mem_iff).1 hmem)
      rw [heq]
      refine ⟨Or.inr ⟨hids, hnot, hexp, rfl⟩,
        ⟨Or.inr ((hids.mem_iff).2 (List.mem_cons_self _ _)),
          fun _ _ => aLookup_mapSet_self _ _ _⟩,
        Or.inr ⟨hexp, rfl⟩⟩

theorem initState_QInv (p : Policy S) : QInv p (initState p) := by
  refine ⟨?_, ?_, ?_, ?_, ?_, Or.inr ⟨rfl, ?_, rfl, rfl, rfl⟩⟩
  · rw [initState, heapInit_singleton]
    simp [qIds]
  · simp [initState]
  · simp [initState]
  · simp [initState]
  · simp [initState]
  · rw [initState, heapInit_singleton]

/-- What one pop (with its bookkeeping) does, under the invariant. -/
theorem popState_spec (p : Policy S) (st : LoopState S) (cur : Entry S)
    (st1 : LoopState S) (hpop : popState p st = (cur, st1))
    (hq : st.q ≠ []) (hinv : QInv p st) :
    (cur.id :: qIds st1).Perm (qIds st) ∧
    cur.id ∉ st.explored ∧
    st1.explored = st.explored ++ [cur.id] ∧
    st1.steps = st.steps ++ [cur.id] ∧
    st1.transitions = st.transitions ∧
    (qIds st1).Nodup ∧
    (∀ s ∈ qIds st1, s ∉ st1.explored) ∧
    (∀ s ∈ st1.explored, s ∈ st1.steps) ∧
    (∀ s ∈ st1.steps, s ∈ st1.explored) ∧
    st1.steps.Nodup ∧
    (qIds st1).Perm st1.links ∧
    p.start ∈ st1.explored := by
  obtain ⟨hnodup, hdisj, hes, hse, hsen, hmain⟩ := hinv
  have hcur : cur = (heapPop st.q).1 :=
    (congrArg Prod.fst hpop).symm
  have hst1 : st1 =
      { q := (heapPop st.q).2
        links := setErase st.links (heapPop st.q).1.id
        explored := setInsert st.explored (heapPop st.q).1.id
        transitions := st.transitions
        steps := st.steps ++ [(heapPop st.q).1.id] } :=
    (congrArg Prod.snd hpop).symm
  have hperm : (cur :: (heapPop st.q).2).Perm st.q := by
    rw [hcur]
    exact heapPop_spec st.q hq
  have hidperm : (cur.id :: qIds st1).Perm (qIds st) := by
    have := hperm.map (·.id)
    rw [hst1]
    exact this
  have hcurmem : cur.id ∈ qIds st := (hidperm.mem_iff).1 (List.mem_cons_self _ _)
  have hcurnotexp : cur.id ∉ st.explored := hdisj _ hcurmem
  have hnodup1 : (cur.id :: qIds st1).Nodup := (hidperm.nodup_iff).2 hnodup
  have hq1nodup : (qIds st1).Nodup := (List.nodup_cons.1 hnodup1).2
  have hcurnotq1 : cur.id ∉ qIds st1 := (List.nodup_cons.1 hnodup1).1
  have hexp1 : st1.explored = st.explored ++ [cur.id] := by
    rw [hst1, ← hcur]
    show setInsert st.explored cur.id = _
    rw [setInsert, if_neg hcurnotexp]
  have hsteps1 : st1.steps = st.steps ++ [cur.id] := by rw [hst1, hcur]
  have htrans1 : st1.transitions = st.transitions := by rw [hst1]
  have hsub1 : ∀ s ∈ qIds st1, s ∈ qIds st := fun s hs =>
    (hidperm.mem_iff).1 (List.mem_cons_of_mem _ hs)
  have hdisj1 : ∀ s ∈ qIds st1, s ∉ st1.explored := by
    intro s hs hmem
    rw [hexp1] at hmem
    rcases List.mem_append.1 hmem with hmem | hmem
    · exact hdisj s (hsub1 s hs) hmem
    · rcases List.mem_singleton.1 hmem with rfl
      exact hcurnotq1 hs
  have hcurnotsteps : cur.id ∉ st.steps := fun hmem => hcurnotexp (hse _ hmem)
  have hes1 : ∀ s ∈ st1.explored, s ∈ st1.steps := by
    intro s hs
    rw [hexp1] at hs
    rw [hsteps1]
    rcases List.mem_append.1 hs with hs | hs
    · exact List.mem_append_left _ (hes s hs)
    · exact List.mem_append_right _ hs
  have hse1 : ∀ s ∈ st1.steps, s ∈ st1.explored := by
    intro s hs
    rw [hsteps1] at hs
    rw [hexp1]
    rcases List.mem_append.1 hs with hs | hs
    · exact List.mem_append_left _ (hse s hs)
    · exact List.mem_append_right _ hs
  have hsen1 : st1.steps.Nodup := by
    rw [hsteps1]
    simp [List.nodup_append, hsen, hcurnotsteps]
  have hlinks1 : (qIds st1).Perm st1.links ∧ p.start ∈ st1.explored := by
    rcases hmain with ⟨hlp, hstart⟩ | ⟨he0, hq0, hl0, _, _⟩
    · constructor
      · have hfil : st1.links = List.filter (fun s => decide (s ≠ cur.id)) st.links := by
          rw [hst1, hcur]
          rfl
        have h1 : (List.filter (fun s => decide (s ≠ cur.id)) st.links).Perm
            (List.filter (fun s => decide (s ≠ cur.id)) (cur.id :: qIds st1)) :=
          (hlp.symm.trans hidperm.symm).filter _
        have h2 : List.filter (fun s => decide (s ≠ cur.id)) (cur.id :: qIds st1)
            = qIds st1 := by
          have hstep : List.filter (fun s => decide (s ≠ cur.id)) (cur.id :: qIds st1)
              = List.filter (fun s => decide (s ≠ cur.id)) (qIds st1) := by
            rw [List.filter_cons]
            split
            · next hcond => simp at hcond
            · rfl
          rw [hstep]
          apply List.filter_eq_self.2
          intro s hs
          simp only [ne_eq, decide_eq_true_eq]
          intro hcon
          exact hcurnotq1 (hcon ▸ hs)
        rw [hfil]
        rw [h2] at h1
        exact h1.symm
      · rw [hexp1]
        exact List.mem_append_left _ hstart
    · -- the initial state: the popped entry is the start entry
      have hpop0 : heapPop st.q = (⟨p.start, 0, p.estimate p.start⟩, []) := by
        rw [hq0, heapPop_singleton]
      constructor
      · have : qIds st1 = [] := by
          rw [hst1, hpop0]
          rfl
        rw [this, hst1, hpop0, hl0]
        exact List.Perm.refl _
      · rw [hexp1, he0]
        have : cur.id = p.start := by
          rw [hcur, hpop0]
        rw [this]
        exact List.mem_singleton_self _
  exact ⟨hidperm, hcurnotexp, hexp1, hsteps1, htrans1, hq1nodup, hdisj1, hes1,
    hse1, hsen1, hlinks1.1, hlinks1.2⟩

/-- What the whole successor loop (`expand`) does, under the invariant:
the frontier ids stay duplicate-free, matched with the `queuedLinks`
keys and disjoint from the explored set; the frontier only grows, and
only by processed successors; every processed successor ends up explored
or on the frontier; and the predecessor map changes only by recording
`cur.id` as the predecessor of processed, non-explored successors, with
every newly enqueued state receiving an entry. -/
theorem foldl_processSucc_spec (p : Policy S) (cur : Entry S) :
    ∀ (l : List S) (st : LoopState S),
      (qIds st).Nodup → (qIds st).Perm st.links →
      (∀ s ∈ qIds st, s ∉ st.explored) →
      ((qIds (l.foldl (processSucc p cur) st)).Nodup ∧
       (qIds (l.foldl (processSucc p cur) st)).Perm
         (l.foldl (processSucc p cur) st).links ∧
       (∀ s ∈ qIds (l.foldl (processSucc p cur) st), s ∉ st.explored) ∧
       (∀ s ∈ qIds st, s ∈ qIds (l.foldl (processSucc p cur) st)) ∧
       (∀ s ∈ qIds (l.foldl (processSucc p cur) st), s ∈ qIds st ∨ s ∈ l) ∧
       (∀ x ∈ l, x ∈ st.explored ∨ x ∈ qIds (l.foldl (processSucc p cur) st)) ∧
       (∀ pr ∈ (l.foldl (processSucc p cur) st).transitions,
          pr ∈ st.transitions ∨ (pr.2 = cur.id ∧ pr.1 ∈ l ∧ pr.1 ∉ st.explored)) ∧
       (∀ s, (aLookup st.transitions s).isSome →
          (aLookup (l.foldl (processSucc p cur) st).transitions s).isSome) ∧
       (∀ s ∈ qIds (l.foldl (processSucc p cur) st), s ∈ qIds st ∨
          (aLookup (l.foldl (processSucc p cur) st).transitions s).isSome)) := by
  intro l
  induction l with
  | nil =>
    intro st h1 h2 h3
    exact ⟨h1, h2, h3, fun s hs => hs, fun s hs => Or.inl hs, by simp,
      fun pr hpr => Or.inl hpr, fun s hs => hs, fun s hs => Or.inl hs⟩
  | cons x xs ih =>
    intro st h1 h2 h3
    rw [List.foldl_cons]
    obtain ⟨hA, ⟨hcov, hwrite⟩, hC⟩ := processSucc_cases p cur st x h1 h2
    have hexp' : (processSucc p cur st x).explored = st.explored :=
      processSucc_explored p cur st x
    -- single-step facts
    have h1' : (qIds (processSucc p cur st x)).Nodup := by
      rcases hA with ⟨hperm, _⟩ | ⟨hperm, hnot, _, _⟩
      · exact (hperm.nodup_iff).2 h1
      · exact (hperm.nodup_iff).2 (List.nodup_cons.2 ⟨hnot, h1⟩)
    have h2' : (qIds (processSucc p cur st x)).Perm
        (processSucc p cur st x).links := by
      rcases hA with ⟨hperm, hl⟩ | ⟨hperm, _, _, hl⟩
      · rw [hl]; exact hperm.trans h2
      · rw [hl]
        exact hperm.trans ((List.perm_append_singleton x (qIds st)).symm.trans
          (h2.append_right [x]))
    have hsub' : ∀ s ∈ qIds (processSucc p cur st x), s ∈ qIds st ∨ s = x := by
      intro s hs
      rcases hA with ⟨hperm, _⟩ | ⟨hperm, _, _, _⟩
      · exact Or.inl ((hperm.mem_iff).1 hs)
      · rcases List.mem_cons.1 ((hperm.mem_iff).1 hs) with hs | hs
        · exact Or.inr hs
        · exact Or.inl hs
    have h3' : ∀ s ∈ qIds (processSucc p cur st x),
        s ∉ (processSucc p cur st x).explored := by
      intro s hs
      rw [hexp']
      rcases hsub' s hs with hs' | rfl
      · exact h3 s hs'
      · rcases hA with ⟨hperm, _⟩ | ⟨_, _, hnx, _⟩
        · exact h3 s ((hperm.mem_iff).1 hs)
        · exact hnx
    have hmono' : ∀ s ∈ qIds st, s ∈ qIds (processSucc p cur st x) := by
      intro s hs
      rcases hA with ⟨hperm, _⟩ | ⟨hperm, _, _, _⟩
      · exact (hperm.mem_iff).2 hs
      · exact (hperm.mem_iff).2 (List.mem_cons_of_mem _ hs)
    have htr' : ∀ pr ∈ (processSucc p cur st x).transitions,
        pr ∈ st.transitions ∨ (pr.2 = cur.id ∧ pr.1 = x ∧ pr.1 ∉ st.explored) := by
      intro pr hpr
      rcases hC with ht | ⟨hnx, ht⟩
      · rw [ht] at hpr; exact Or.inl hpr
      · rw [ht] at hpr
        rcases mem_mapSet hpr with rfl | ⟨hmem, _⟩
        · exact Or.inr ⟨rfl, rfl, hnx⟩
        · exact Or.inl hmem
    have hsome' : ∀ s, (aLookup st.transitions s).isSome →
        (aLookup (processSucc p cur st x).transitions s).isSome := by
      intro s hs
      rcases hC with ht | ⟨_, ht⟩
      · rw [ht]; exact hs
      · rw [ht]; exact aLookup_isSome_mapSet _ _ _ _ hs
    obtain ⟨iha, ihb, ihc, ihd, ihe, ihf, ihg, ihh, ihi⟩ :=
      ih (processSucc p cur st x) h1' h2' h3'
    refine ⟨iha, ihb, ?_, ?_, ?_, ?_, ?_, ?_, ?_⟩
    · intro s hs
      rw [← hexp']
      exact ihc s hs
    · intro s hs
      exact ihd s (hmono' s hs)
    · intro s hs
      rcases ihe s hs with hs' | hs'
      · rcases hsub' s hs' with h | h
        · exact Or.inl h
        · exact Or.inr (h ▸ List.mem_cons_self _ _)
      · exact Or.inr (List.mem_cons_of_mem _ hs')
    · intro y hy
      rcases List.mem_cons.1 hy with rfl | hy
      · rcases hcov with hc | hc
        · exact Or.inl hc
        · exact Or.inr (ihd y hc)
      · rcases ihf y hy with hc | hc
        · rw [hexp'] at hc; exact Or.inl hc
        · exact Or.inr hc
    · intro pr hpr
      rcases ihg pr hpr with hpr' | ⟨hv, hm, hne⟩
      · rcases htr' pr hpr' with h | ⟨hv, hm, hne⟩
        · exact Or.inl h
        · exact Or.inr ⟨hv, hm ▸ List.mem_cons_self _ _, hne⟩
      · rw [hexp'] at hne
        exact Or.inr ⟨hv, List.mem_cons_of_mem _ hm, hne⟩
    · intro s hs
      exact ihh s (hsome' s hs)
    · intro s hs
      rcases ihi s hs with hs' | hs'
      · rcases hsub' s hs' with h | rfl
        · exact Or.inl h
        · by_cases hsx : s ∈ qIds st
          · exact Or.inl hsx
          · by_cases hse : s ∈ st.explored
            · -- explored successors are skipped, so s would be in qIds st
              rcases hA with ⟨hperm, _⟩ | ⟨_, _, hnx, _⟩
              · exact absurd ((hperm.mem_iff).1 hs') hsx
              · exact absurd hse hnx
            · exact Or.inr (ihh s (by rw [hwrite hse hsx]; rfl))
      · exact Or.inr hs'

/-- One full non-final iteration of the search loop preserves the
closed-list invariant. -/
theorem iterState_QInv (p : Policy S) (st : LoopState S) (hq : st.q ≠ [])
    (hinv : QInv p st) : QInv p (iterState p st) := by
  obtain ⟨hperm, hne, hexp1, hsteps1, htrans1, hnodup1, hdisj1, hes1, hse1,
    hsen1, hlp1, hstart1⟩ :=
    popState_spec p st (popState p st).1 (popState p st).2 rfl hq hinv
  obtain ⟨f1, f2, f3, _, _, _, _, _, _⟩ :=
    foldl_processSucc_spec p (popState p st).1
      (p.successors (popState p st).1.id) (popState p st).2 hnodup1 hlp1 hdisj1
  have hexpE : (iterState p st).explored = (popState p st).2.explored :=
    expand_explored p (popState p st).1 (popState p st).2
  have hexpS : (iterState p st).steps = (popState p st).2.steps :=
    expand_steps p (popState p st).1 (popState p st).2
  refine ⟨f1, ?_, ?_, ?_, ?_, Or.inl ⟨f2, ?_⟩⟩
  · intro s hs
    rw [hexpE]
    exact f3 s hs
  · intro s hs
    rw [hexpE] at hs
    rw [hexpS]
    exact hes1 s hs
  · intro s hs
    rw [hexpS] at hs
    rw [hexpE]
    exact hse1 s hs
  · rw [hexpS]
    exact hsen1
  · rw [hexpE]
    exact hstart1

theorem searchAux_steps_nodup (p : Policy S) :
    ∀ (fuel : Nat) (st : LoopState S) (r : SearchResult S),
      QInv p st → searchAux p fuel st = some r → r.steps.Nodup := by
  intro fuel
  induction fuel with
  | zero =>
    intro st r _ h
    exact absurd h (by simp [searchAux_zero])
  | succ n ih =>
    intro st r hinv h
    rw [searchAux] at h
    by_cases hq : st.q.isEmpty
    · simp only [hq, if_true, Option.some.injEq] at h
      subst h
      exact hinv.2.2.2.2.1
    · simp only [hq, Bool.false_eq_true, if_false] at h
      have hqne : st.q ≠ [] := by
        intro hcon
        rw [hcon] at hq
        exact hq rfl
      obtain ⟨_, _, _, hsteps1, _, _, _, _, _, hsen1, _, _⟩ :=
        popState_spec p st (popState p st).1 (popState p st).2 rfl hqne hinv
      by_cases hf : p.finish (popState p st).1.id = true
      · simp only [hf, if_true] at h
        cases hrec : reconstructAux (popState p st).2.transitions n
            (popState p st).1.id [(popState p st).1.id] with
        | none => rw [hrec] at h; exact absurd h (by simp)
        | some path =>
          rw [hrec] at h
          simp only [Option.map_some', Option.some.injEq] at h
          subst h
          exact hsen1
      · simp only [hf, Bool.false_eq_true, if_false] at h
        exact ih _ r (iterState_QInv p st hqne hinv) h

/-- C4: the closed-list discipline.  `QInv` states that each state has
at most one live frontier entry (the frontier ids are duplicate-free),
and that no explored state is on the frontier; the invariant holds in
the initial loop state and is preserved by every loop iteration, so it
holds at every iteration of the search loop.  Moreover the returned
explored trace of any terminating run has no duplicates: a state, once
explored, is never expanded again. -/
theorem closed_list_discipline (p : Policy S) :
    QInv p (initState p) ∧
    (∀ st : LoopState S, st.q ≠ [] → QInv p st → QInv p (iterState p st)) ∧
    (∀ (fuel : Nat) (st : LoopState S) (r : SearchResult S),
      QInv p st → searchAux p fuel st = some r → r.steps.Nodup) :=
  ⟨initState_QInv p, fun st hq hinv => iterState_QInv p st hq hinv,
    fun fuel st r hinv h => searchAux_steps_nodup p fuel st r hinv h⟩

/-- Witness for C4 at a concrete state space: the invariant holds at
the initial state, and the explored trace of a concrete run is
duplicate-free. -/
theorem closed_list_discipline_witness :
    QInv { start := false, finish := fun _ => false,
           successors := fun _ => [true], cost := fun _ _ => 1,
           estimate := fun _ => 0 : Policy Bool }
      (initState { start := false, finish := fun _ => false,
                   successors := fun _ => [true], cost := fun _ _ => 1,
                   estimate := fun _ => 0 : Policy Bool }) ∧
    (SearchResult.steps ⟨[], [false, true], some GoError.notFound⟩).Nodup := by
  have h := closed_list_discipline
    { start := false, finish := fun _ => false, successors := fun _ => [true],
      cost := fun _ _ => 1, estimate := fun _ => 0 : Policy Bool }
  exact ⟨h.1, h.2.2 4 _ ⟨[], [false, true], some GoError.notFound⟩ h.1
    (by with_unfolding_all decide)⟩

theorem eLess_iff (q : List (Entry S)) (a b : Nat) :
    eLess q a b = true ↔ key (nth q a) < key (nth q b) := by
  rw [eLess]
  simp

theorem childSel_cases (q : List (Entry S)) (i n : Nat) :
    childSel q i n = 2*i+1 ∨ childSel q i n = 2*i+2 := by
  rw [childSel]
  split
  · exact Or.inr rfl
  · exact Or.inl rfl

/-- `childSel` picks the child with the strictly smaller key (ties go
to the left child, as in Go's `down`). -/
theorem childSel_min (q : List (Entry S)) (i n : Nat) (h : 2*i+1 < n) :
    ∀ c, c < n → (c-1)/2 = i → 0 < c →
      key (nth q (childSel q i n)) ≤ key (nth q c) := by
  intro c hc hpar hpos
  have hc12 : c = 2*i+1 ∨ c = 2*i+2 := by omega
  rw [childSel]
  split
  · next hcond =>
    rcases hc12 with rfl | rfl
    · exact le_of_lt ((eLess_iff q _ _).1 hcond.2)
    · exact le_rfl
  · next hcond =>
    rcases hc12 with rfl | rfl
    · exact le_rfl
    · have h2 : ¬ eLess q (2*i+2) (2*i+1) = true := by
        intro hcon
        exact hcond ⟨hc, hcon⟩
      exact le_of_not_lt (fun hcon => h2 ((eLess_iff q _ _).2 hcon))

/-- `container/heap`'s `up` restores the heap property: if every
parent-child pair not involving position `j` is ordered, and the
grandparent of `j` already bounds `j`'s children, sifting up from `j`
yields a heap. -/
theorem heapUp_correct :
    ∀ (j : Nat) (q : List (Entry S)), j < q.length →
      (∀ c, c < q.length → 0 < c → c ≠ j →
        key (nth q ((c-1)/2)) ≤ key (nth q c)) →
      (∀ c, c < q.length → 0 < c → (c-1)/2 = j → j ≠ 0 →
        key (nth q ((j-1)/2)) ≤ key (nth q c)) →
      IsMinHeap (heapUp q j) := by
  intro j
  induction j using Nat.strong_induction_on with
  | _ j ih =>
    intro q hj h1 h2
    rw [heapUp_eq]
    by_cases h0 : j = 0
    · simp only [h0, if_true]
      intro c hc hpos
      exact h1 c hc hpos (by omega)
    · simp only [h0, if_false]
      by_cases hl : eLess q j ((j-1)/2) = true
      · simp only [hl, if_true]
        have hij : (j-1)/2 < j := by omega
        have hilen : (j-1)/2 < q.length := by omega
        have hlt : key (nth q j) < key (nth q ((j-1)/2)) := (eLess_iff q _ _).1 hl
        have hlen' : (eSwap q ((j-1)/2) j).length = q.length := length_eSwap q _ _
        have hnei : nth (eSwap q ((j-1)/2) j) ((j-1)/2) = nth q j :=
          nth_eSwap_fst q _ j hilen (by omega)
        have hnej : nth (eSwap q ((j-1)/2) j) j = nth q ((j-1)/2) :=
          nth_eSwap_snd q _ j hj
        have hno : ∀ k, k ≠ (j-1)/2 → k ≠ j →
            nth (eSwap q ((j-1)/2) j) k = nth q k := fun k hk1 hk2 =>
          nth_eSwap_other q _ j k (Ne.symm hk1) (Ne.symm hk2)
        apply ih ((j-1)/2) hij (eSwap q ((j-1)/2) j) (by omega)
        · -- all edges not at the new cursor are ordered
          intro c hc hpos hcne
          rw [hlen'] at hc
          by_cases hcj : c = j
          · rw [hcj, hnej, hnei]
            exact le_of_lt hlt
          · by_cases hpj : (c-1)/2 = j
            · rw [hno c (by omega) hcj, show ((c-1)/2) = j from hpj, hnej]
              exact h2 c hc hpos hpj h0
            · by_cases hpi : (c-1)/2 = (j-1)/2
              · -- sibling of j under the same parent
                rw [hno c hcne hcj, hpi, hnei]
                have := h1 c hc hpos hcj
                rw [hpi] at this
                exact le_trans (le_of_lt hlt) this
              · rw [hno c hcne hcj, hno _ hpi hpj]
                exact h1 c hc hpos hcj
        · -- the grandparent still bounds the children of the new cursor
          intro c hc hpos hpar hne0
          rw [hlen'] at hc
          have hgp : ((j-1)/2-1)/2 ≠ (j-1)/2 := by omega
          have hgpj : ((j-1)/2-1)/2 ≠ j := by omega
          rw [hno _ hgp hgpj]
          by_cases hcj : c = j
          · rw [hcj, hnej]
            exact h1 ((j-1)/2) hilen (by omega) (by omega)
          · rw [hno c (by omega) hcj]
            have hstep1 := h1 ((j-1)/2) hilen (by omega) (by omega)
            have hstep2 := h1 c hc hpos hcj
            rw [hpar] at hstep2
            exact le_trans hstep1 hstep2
      · simp only [hl, if_false]
        intro c hc hpos
        by_cases hcj : c = j
        · rw [hcj]
          exact le_of_not_lt (fun hcon => hl ((eLess_iff q _ _).2 hcon))
        · exact h1 c hc hpos hcj

/-- `container/heap`'s `down` within bound `n`: if every parent-child
pair in range not emanating from position `i` is ordered, and the
parent of `i` already bounds `i`'s children, then sifting down from `i`
either moves the cursor (and fully restores the order on the first `n`
positions) or leaves the array unchanged with the downward edges at `i`
verified. -/
theorem heapDown_correct :
    ∀ (m : Nat) (q : List (Entry S)) (i n : Nat), n - i ≤ m → n ≤ q.length →
      (∀ c, c < n → 0 < c → c ≠ i → (c-1)/2 ≠ i →
        key (nth q ((c-1)/2)) ≤ key (nth q c)) →
      (∀ c, c < n → 0 < c → (c-1)/2 = i → i ≠ 0 →
        key (nth q ((i-1)/2)) ≤ key (nth q c)) →
      (heapDown q i n).2 ≥ i ∧
      ((heapDown q i n).2 > i →
        ∀ c, c < n → 0 < c →
          key (nth (heapDown q i n).1 ((c-1)/2)) ≤ key (nth (heapDown q i n).1 c)) ∧
      ((heapDown q i n).2 = i → (heapDown q i n).1 = q ∧
        ∀ c, c < n → 0 < c → (c-1)/2 = i → key (nth q i) ≤ key (nth q c)) := by
  intro m
  induction m with
  | zero =>
    intro q i n hm hn h1 h2
    have hc : ¬ 2*i+1 < n := by omega
    rw [heapDown_eq, if_neg hc]
    refine ⟨le_rfl, fun hcon => absurd hcon (lt_irrefl i), fun _ => ⟨rfl, ?_⟩⟩
    intro c hcn _ hpar
    omega
  | succ m ih =>
    intro q i n hm hn h1 h2
    rw [heapDown_eq]
    by_cases hc : 2*i+1 < n
    · rw [if_pos hc]
      by_cases hl : eLess q (childSel q i n) i = true
      · rw [if_pos hl]
        have hji := childSel_gt q i n
        have hjn := childSel_lt q hc
        have hpj : (childSel q i n - 1)/2 = i := by
          rcases childSel_cases q i n with h | h <;> omega
        have hlt : key (nth q (childSel q i n)) < key (nth q i) :=
          (eLess_iff q _ _).1 hl
        have hilen : i < q.length := by omega
        have hjlen : childSel q i n < q.length := by omega
        have hnei : nth (eSwap q i (childSel q i n)) i = nth q (childSel q i n) :=
          nth_eSwap_fst q i _ hilen (by omega)
        have hnej : nth (eSwap q i (childSel q i n)) (childSel q i n) = nth q i :=
          nth_eSwap_snd q i _ hjlen
        have hno : ∀ k, k ≠ i → k ≠ childSel q i n →
            nth (eSwap q i (childSel q i n)) k = nth q k := fun k hk1 hk2 =>
          nth_eSwap_other q i _ k (Ne.symm hk1) (Ne.symm hk2)
        have hlen' : (eSwap q i (childSel q i n)).length = q.length :=
          length_eSwap q _ _
        have hH1 : ∀ c, c < n → 0 < c → c ≠ childSel q i n →
            (c-1)/2 ≠ childSel q i n →
            key (nth (eSwap q i (childSel q i n)) ((c-1)/2))
              ≤ key (nth (eSwap q i (childSel q i n)) c) := by
          intro c hcn hpos hcj hparj
          by_cases hci : c = i
          · have hipos : 0 < i := by omega
            have hgpi : (i-1)/2 ≠ i := by omega
            have hgpj : (i-1)/2 ≠ childSel q i n := by omega
            rw [hci, hno _ hgpi hgpj, hnei]
            exact h2 (childSel q i n) hjn (by omega) hpj (by omega)
          · by_cases hpari : (c-1)/2 = i
            · rw [hno c hci hcj, hpari, hnei]
              exact childSel_min q i n hc c hcn hpari hpos
            · rw [hno c hci hcj, hno _ hpari hparj]
              exact h1 c hcn hpos hci hpari
        have hH2 : ∀ c, c < n → 0 < c → (c-1)/2 = childSel q i n →
            childSel q i n ≠ 0 →
            key (nth (eSwap q i (childSel q i n)) ((childSel q i n - 1)/2))
              ≤ key (nth (eSwap q i (childSel q i n)) c) := by
          intro c hcn hpos hpar _
          have hcio : c ≠ i := by omega
          have hcjo : c ≠ childSel q i n := by omega
          rw [hpj, hnei, hno c hcio hcjo]
          have := h1 c hcn hpos hcio (by omega)
          rw [hpar] at this
          exact this
        obtain ⟨ihge, ihgt, iheq⟩ := ih (eSwap q i (childSel q i n))
          (childSel q i n) n (by omega) (by omega) hH1 hH2
        refine ⟨le_trans (le_of_lt hji) ihge, fun _ => ?_,
          fun heq => absurd (heq ▸ ihge) (by omega)⟩
        rcases Nat.lt_or_ge (childSel q i n)
            (heapDown (eSwap q i (childSel q i n)) (childSel q i n) n).2 with
          hgt | hge
        · exact ihgt hgt
        · have heq : (heapDown (eSwap q i (childSel q i n)) (childSel q i n) n).2
              = childSel q i n := by omega
          obtain ⟨hq1, hdownE⟩ := iheq heq
          rw [hq1]
          intro c hcn hpos
          by_cases hcj : c = childSel q i n
          · rw [hcj, hpj, hnei, hnej]
            exact le_of_lt hlt
          · by_cases hparj : (c-1)/2 = childSel q i n
            · rw [hparj]
              exact hdownE c hcn hpos hparj
            · exact hH1 c hcn hpos hcj hparj
      · rw [if_neg hl]
        refine ⟨le_rfl, fun hcon => absurd hcon (lt_irrefl i), fun _ => ⟨rfl, ?_⟩⟩
        intro c hcn hpos hpar
        have hkey : key (nth q i) ≤ key (nth q (childSel q i n)) :=
          le_of_not_lt (fun hcon => hl ((eLess_iff q _ _).2 hcon))
        exact le_trans hkey (childSel_min q i n hc c hcn hpar hpos)
    · rw [if_neg hc]
      refine ⟨le_rfl, fun hcon => absurd hcon (lt_irrefl i), fun _ => ⟨rfl, ?_⟩⟩
      intro c hcn _ hpar
      omega

/-- `heap.Fix` correctness: modifying one position of a heap and then
fixing from that position restores the heap property. -/
theorem heapFix_correct (q0 : List (Entry S)) (i : Nat) (x : Entry S)
    (hheap : IsMinHeap q0) (hi : i < q0.length) :
    IsMinHeap (heapFix (q0.set i x) i) := by
  have hlen : (q0.set i x).length = q0.length := List.length_set q0 i x
  have hH1 : ∀ c, c < (q0.set i x).length → 0 < c → c ≠ i → (c-1)/2 ≠ i →
      key (nth (q0.set i x) ((c-1)/2)) ≤ key (nth (q0.set i x) c) := by
    intro c hcn hpos hci hpari
    rw [nth_set_ne _ _ _ _ (Ne.symm hci), nth_set_ne _ _ _ _ (Ne.symm hpari)]
    exact hheap c (by omega) hpos
  have hH2 : ∀ c, c < (q0.set i x).length → 0 < c → (c-1)/2 = i → i ≠ 0 →
      key (nth (q0.set i x) ((i-1)/2)) ≤ key (nth (q0.set i x) c) := by
    intro c hcn hpos hpar hi0
    have hgpi : (i-1)/2 ≠ i := by omega
    have hci : c ≠ i := by omega
    rw [nth_set_ne _ _ _ _ (Ne.symm hci), nth_set_ne _ _ _ _ (Ne.symm hgpi)]
    have hs1 : key (nth q0 ((i-1)/2)) ≤ key (nth q0 i) :=
      hheap i hi (by omega)
    have hs2 := hheap c (by omega) hpos
    rw [hpar] at hs2
    exact le_trans hs1 hs2
  obtain ⟨hge, hgt, heq⟩ := heapDown_correct ((q0.set i x).length - i)
    (q0.set i x) i (q0.set i x).length le_rfl le_rfl hH1 hH2
  rw [heapFix]
  by_cases hmove : (heapDown (q0.set i x) i (q0.set i x).length).2 > i
  · simp only [hmove, if_true]
    have hlenD : (heapDown (q0.set i x) i (q0.set i x).length).1.length
        = (q0.set i x).length :=
      (heapDown_perm _ i _ le_rfl).length_eq
    intro c hcn hpos
    rw [hlenD] at hcn
    exact hgt hmove c hcn hpos
  · simp only [hmove, if_false]
    have heqi : (heapDown (q0.set i x) i (q0.set i x).length).2 = i := by omega
    obtain ⟨hq1, hdownE⟩ := heq heqi
    rw [hq1]
    apply heapUp_correct i (q0.set i x) (by omega)
    · intro c hcn hpos hci
      by_cases hpari : (c-1)/2 = i
      · rw [hpari]
        exact hdownE c hcn hpos hpari
      · exact hH1 c hcn hpos hci hpari
    · exact fun c hcn hpos hpar hi0 => hH2 c hcn hpos hpar hi0

/-! ### Claim C3 -/

/-- C3: the relaxation rule.  When a successor that is not explored
already has a live frontier entry (found through `queuedLinks`, at its
heap position `findIdx`): if the tentative cost `current.g + Cost` is
strictly below the entry's recorded cost, `Search` updates that entry's
cost in place (the new queue is a permutation of the old queue with
exactly that entry's cost replaced) and `heap.Fix` restores the heap
order, and the successor's predecessor-map binding is overwritten to
`current`'s state while all other bindings are untouched; if the
tentative cost is not strictly smaller, the whole loop state — frontier
entry and predecessor map included — is left unchanged. -/
theorem relaxation_rule (p : Policy S) (cur : Entry S) (st : LoopState S)
    (succ : S) (hexp : succ ∉ st.explored) (hlive : succ ∈ st.links)
    (hnodup : (qIds st).Nodup) (hlinks : (qIds st).Perm st.links)
    (hheap : IsMinHeap st.q) :
    (cur.cost + p.cost cur.id succ
        < (nth st.q (st.q.findIdx (fun e => decide (e.id = succ)))).cost →
      (processSucc p cur st succ).q.Perm
        (st.q.set (st.q.findIdx (fun e => decide (e.id = succ)))
          { nth st.q (st.q.findIdx (fun e => decide (e.id = succ))) with
              cost := cur.cost + p.cost cur.id succ }) ∧
      IsMinHeap (processSucc p cur st succ).q ∧
      aLookup (processSucc p cur st succ).transitions succ = some cur.id ∧
      (∀ k, k ≠ succ → aLookup (processSucc p cur st succ).transitions k
        = aLookup st.transitions k) ∧
      (processSucc p cur st succ).links = st.links ∧
      (processSucc p cur st succ).explored = st.explored ∧
      (processSucc p cur st succ).steps = st.steps) ∧
    (¬ cur.cost + p.cost cur.id succ
        < (nth st.q (st.q.findIdx (fun e => decide (e.id = succ)))).cost →
      processSucc p cur st succ = st) := by
  have hmem : succ ∈ qIds st := (hlinks.mem_iff).2 hlive
  have hfind : st.q.findIdx (fun e => decide (e.id = succ)) < st.q.length := by
    rw [List.findIdx_lt_length]
    obtain ⟨e, he, hid⟩ := List.mem_map.1 hmem
    exact ⟨e, he, by simp [hid]⟩
  constructor
  · intro hlt
    have heq : processSucc p cur st succ =
        { st with
            q := heapFix (st.q.set (st.q.findIdx (fun e => decide (e.id = succ)))
              { nth st.q (st.q.findIdx (fun e => decide (e.id = succ))) with
                  cost := cur.cost + p.cost cur.id succ })
              (st.q.findIdx (fun e => decide (e.id = succ)))
            transitions := mapSet st.transitions succ cur.id } := by
      rw [processSucc]
      simp [hexp, hlive, hlt]
    rw [heq]
    refine ⟨?_, ?_, ?_, ?_, rfl, rfl, rfl⟩
    · exact heapFix_perm _ _ (by rw [List.length_set]; exact hfind)
    · exact heapFix_correct st.q _ _ hheap hfind
    · exact aLookup_mapSet_self _ _ _
    · exact fun k hk => aLookup_mapSet_ne _ _ _ _ hk
  · intro hge
    rw [processSucc]
    simp [hexp, hlive, hge]

/-- Witness for C3: a one-entry frontier whose recorded cost 10 is
beaten by the tentative cost 2, so the entry is relaxed in place. -/
theorem relaxation_rule_witness :
    IsMinHeap (processSucc
      { start := 0, finish := fun _ => false, successors := fun _ => [1],
        cost := fun _ _ => 2, estimate := fun _ => 0 : Policy Nat }
      ⟨0, 0, 0⟩
      { q := [⟨1, 10, 0⟩], links := [1], explored := [], transitions := [],
        steps := [] } 1).q ∧
    aLookup (processSucc
      { start := 0, finish := fun _ => false, successors := fun _ => [1],
        cost := fun _ _ => 2, estimate := fun _ => 0 : Policy Nat }
      ⟨0, 0, 0⟩
      { q := [⟨1, 10, 0⟩], links := [1], explored := [], transitions := [],
        steps := [] } 1).transitions 1 = some 0 := by
  have h := (relaxation_rule
    { start := 0, finish := fun _ => false, successors := fun _ => [1],
      cost := fun _ _ => 2, estimate := fun _ => 0 : Policy Nat }
    ⟨0, 0, 0⟩
    { q := [⟨1, 10, 0⟩], links := [1], explored := [], transitions := [],
      steps := [] } 1
    (by with_unfolding_all decide) (by with_unfolding_all decide)
    (by with_unfolding_all decide) (by with_unfolding_all decide)
    (by with_unfolding_all decide)).1 (by with_unfolding_all decide)
  exact ⟨h.2.1, h.2.2.1⟩

/-! ### Claim C8 -/

theorem processSucc_of_explored (p : Policy S) (cur : Entry S)
    (st : LoopState S) (succ : S) (h : succ ∈ st.explored) :
    processSucc p cur st succ = st := by
  rw [processSucc]
  simp [h]

theorem mem_setInsert_self (l : List S) (x : S) : x ∈ setInsert l x := by
  rw [setInsert]
  split
  · assumption
  · exact List.mem_append_right _ (List.mem_singleton_self _)

/-- Folding the successor loop over a list with an explored state
spliced in is the same as folding over the list without it. -/
theorem foldl_processSucc_skip_middle (p : Policy S) (cur : Entry S) (s0 : S) :
    ∀ (l1 l2 : List S) (st : LoopState S), s0 ∈ st.explored →
      (l1 ++ s0 :: l2).foldl (processSucc p cur) st
        = (l1 ++ l2).foldl (processSucc p cur) st := by
  intro l1
  induction l1 with
  | nil =>
    intro l2 st hs0
    rw [List.nil_append, List.nil_append, List.foldl_cons,
      processSucc_of_explored p cur st s0 hs0]
  | cons x xs ih =>
    intro l2 st hs0
    rw [List.cons_append, List.cons_append, List.foldl_cons, List.foldl_cons]
    apply ih
    rw [processSucc_explored]
    exact hs0

theorem processSucc_policy_congr (p p' : Policy S) (cur : Entry S)
    (hcost : p'.cost = p.cost) (hest : p'.estimate = p.estimate) :
    processSucc p' cur = processSucc p cur := by
  funext st succ
  rw [processSucc, processSucc, hcost, hest]

/-- C8: adding a state itself to its own successor list does not change
the search at all: for every fuel budget, `Search` on the policy with
the self-edge returns exactly what `Search` on the otherwise-identical
policy without the self-edge returns (same path, same explored trace,
same outcome) — in particular the self-edge cannot cause
non-termination, because by the time a state's successors are scanned
the state itself has just been added to the explored set and the
self-successor is skipped. -/
theorem self_loop_successor_equiv (p p' : Policy S) (s0 : S) (l1 l2 : List S)
    (hstart : p'.start = p.start) (hfinish : p'.finish = p.finish)
    (hcost : p'.cost = p.cost) (hest : p'.estimate = p.estimate)
    (hsucc : ∀ s, s ≠ s0 → p'.successors s = p.successors s)
    (hs0' : p'.successors s0 = l1 ++ s0 :: l2)
    (hs0 : p.successors s0 = l1 ++ l2) :
    ∀ fuel, search p' fuel = search p fuel := by
  have haux : ∀ (fuel : Nat) (st : LoopState S),
      searchAux p' fuel st = searchAux p fuel st := by
    intro fuel
    induction fuel with
    | zero => intro st; rfl
    | succ n ih =>
      intro st
      rw [searchAux, searchAux]
      by_cases hq : st.q.isEmpty
      · simp [hq]
      · simp only [hq, Bool.false_eq_true, if_false]
        have hpop : popState p' st = popState p st := rfl
        rw [hpop, hfinish]
        by_cases hf : p.finish (popState p st).1.id = true
        · simp [hf]
        · simp only [hf, Bool.false_eq_true, if_false]
          rw [ih]
          congr 1
          show expand p' (popState p st).1 (popState p st).2
            = expand p (popState p st).1 (popState p st).2
          rw [expand, expand,
            processSucc_policy_congr p p' (popState p st).1 hcost hest]
          by_cases hcur : (popState p st).1.id = s0
          · rw [hcur, hs0', hs0]
            apply foldl_processSucc_skip_middle
            rw [← hcur]
            show (popState p st).1.id ∈ setInsert st.explored (popState p st).1.id
            exact mem_setInsert_self _ _
          · rw [hsucc _ hcur]
  intro fuel
  rw [search, search]
  have hinit : initState p' = initState p := by
    rw [initState, initState, hstart, hest]
  rw [hinit, haux]

/-- Witness for C8: a two-state space where the start state lists
itself as its only successor; the run agrees with the run without the
self-edge. -/
theorem self_loop_successor_equiv_witness :
    search { start := false, finish := fun _ => false,
             successors := fun s => if s = false then [false] else [],
             cost := fun _ _ => 1, estimate := fun _ => 0 : Policy Bool } 3 =
    search { start := false, finish := fun _ => false,
             successors := fun _ => [],
             cost := fun _ _ => 1, estimate := fun _ => 0 : Policy Bool } 3 :=
  self_loop_successor_equiv
    { start := false, finish := fun _ => false, successors := fun _ => [],
      cost := fun _ _ => 1, estimate := fun _ => 0 }
    { start := false, finish := fun _ => false,
      successors := fun s => if s = false then [false] else [],
      cost := fun _ _ => 1, estimate := fun _ => 0 }
    false [] [] rfl rfl rfl rfl
    (by intro s hs; simp [hs]) (by simp) rfl 3

theorem rankIn_lt_length {l : List S} {x : S} (h : x ∈ l) :
    rankIn l x < l.length := by
  rw [rankIn, List.findIdx_lt_length]
  exact ⟨x, h, by simp⟩

theorem rankIn_append_left {l : List S} {x : S} (t : List S) (h : x ∈ l) :
    rankIn (l ++ t) x = rankIn l x := by
  induction l with
  | nil => simp at h
  | cons y ys ih =>
    rw [List.cons_append, rankIn, List.findIdx_cons, rankIn, List.findIdx_cons]
    by_cases hy : y = x
    · simp [hy]
    · simp only [hy, decide_eq_true_eq, cond_false,
        show decide (y = x) = false by simp [hy]]
      rw [show List.findIdx (fun s => decide (s = x)) (ys ++ t)
          = rankIn (ys ++ t) x from rfl,
        show List.findIdx (fun s => decide (s = x)) ys = rankIn ys x from rfl,
        ih (by rcases List.mem_cons.1 h with h | h
               · exact absurd h.symm hy
               · exact h)]

theorem rankIn_append_new {l : List S} {x : S} (h : x ∉ l) :
    rankIn (l ++ [x]) x = l.length := by
  induction l with
  | nil => simp [rankIn, List.findIdx_cons]
  | cons y ys ih =>
    rw [List.cons_append, rankIn, List.findIdx_cons]
    have hy : y ≠ x := fun hcon => h (hcon ▸ List.mem_cons_self y ys)
    simp only [show decide (y = x) = false by simp [hy], cond_false]
    rw [show List.findIdx (fun s => decide (s = x)) (ys ++ [x])
        = rankIn (ys ++ [x]) x from rfl,
      ih (fun hcon => h (List.mem_cons_of_mem _ hcon))]
    rfl

theorem initState_TransInv (p : Policy S) : TransInv p (initState p) := by
  refine ⟨?_, ?_, ?_⟩
  · intro pr hpr
    exact absurd hpr (by simp [initState])
  · intro s hs
    exact absurd hs (by simp [initState])
  · intro s hs hne
    rw [initState, qIds, heapInit_singleton] at hs
    simp at hs
    exact absurd hs hne

/-- The pop step preserves the predecessor-map invariant. -/
theorem popState_TransInv (p : Policy S) (st : LoopState S)
    (hq : st.q ≠ []) (hinv : QInv p st) (htinv : TransInv p st) :
    TransInv p (popState p st).2 := by
  obtain ⟨hidperm, hcurne, hexp1, hsteps1, htrans1, _, _, _, hse1, hsen1, _, _⟩ :=
    popState_spec p st (popState p st).1 (popState p st).2 rfl hq hinv
  obtain ⟨t1, t2, t3⟩ := htinv
  have hcurmem : (popState p st).1.id ∈ qIds st :=
    (hidperm.mem_iff).1 (List.mem_cons_self _ _)
  have hcurnotsteps : (popState p st).1.id ∉ st.steps := by
    intro hcon
    exact hcurne (hinv.2.2.2.1 _ hcon)
  refine ⟨?_, ?_, ?_⟩
  · intro pr hpr
    rw [htrans1] at hpr
    obtain ⟨hmem, hnst, hsuc, hrank⟩ := t1 pr hpr
    rw [hsteps1]
    refine ⟨List.mem_append_left _ hmem, hnst, hsuc, ?_⟩
    intro hpr1
    rcases List.mem_append.1 hpr1 with hpr1 | hpr1
    · rw [rankIn_append_left _ hmem, rankIn_append_left _ hpr1]
      exact hrank hpr1
    · rcases List.mem_singleton.1 hpr1 with heq
      rw [heq, rankIn_append_left _ hmem, rankIn_append_new hcurnotsteps]
      exact rankIn_lt_length hmem
  · intro s hs hne
    rw [htrans1]
    rw [hexp1] at hs
    rcases List.mem_append.1 hs with hs | hs
    · exact t2 s hs hne
    · rcases List.mem_singleton.1 hs with rfl
      exact t3 _ hcurmem hne
  · intro s hs hne
    rw [htrans1]
    have : s ∈ qIds st :=
      (hidperm.mem_iff).1 (List.mem_cons_of_mem _ hs)
    exact t3 s this hne

/-- A full loop iteration preserves the predecessor-map invariant. -/
theorem iterState_TransInv (p : Policy S) (st : LoopState S) (hq : st.q ≠ [])
    (hinv : QInv p st) (htinv : TransInv p st) :
    TransInv p (iterState p st) := by
  obtain ⟨hidperm, hcurne, hexp1, hsteps1, htrans1, hnodup1, hdisj1, hes1, hse1,
    hsen1, hlp1, hstart1⟩ :=
    popState_spec p st (popState p st).1 (popState p st).2 rfl hq hinv
  obtain ⟨t1, t2, t3⟩ := popState_TransInv p st hq hinv htinv
  obtain ⟨_, _, _, _, _, _, ihg, ihh, ihi⟩ :=
    foldl_processSucc_spec p (popState p st).1
      (p.successors (popState p st).1.id) (popState p st).2 hnodup1 hlp1 hdisj1
  have hexpE : (iterState p st).explored = (popState p st).2.explored :=
    expand_explored p (popState p st).1 (popState p st).2
  have hexpS : (iterState p st).steps = (popState p st).2.steps :=
    expand_steps p (popState p st).1 (popState p st).2
  have hcurstep : (popState p st).1.id ∈ (popState p st).2.steps := by
    rw [hsteps1]
    exact List.mem_append_right _ (List.mem_singleton_self _)
  refine ⟨?_, ?_, ?_⟩
  · intro pr hpr
    rw [hexpS]
    rcases ihg pr hpr with hpr' | ⟨hv, hm, hne⟩
    · obtain ⟨hmem, hnst, hsuc, hrank⟩ := t1 pr hpr'
      exact ⟨hmem, hnst, hsuc, hrank⟩
    · refine ⟨hv ▸ hcurstep, ?_, hv ▸ hm, ?_⟩
      · intro hcon
        exact hne (hcon ▸ hstart1)
      · intro hcon
        exact absurd (hse1 _ hcon) hne
  · intro s hs hne
    rw [hexpE] at hs
    exact ihh s (t2 s hs hne)
  · intro s hs hne
    rcases ihi s hs with hs' | hs'
    · exact ihh s (t3 s hs' hne)
    · exact hs'

/-- Under decreasing ranks, the backward reconstruction walk always
terminates at a state with no binding, which must be the start state. -/
theorem reconstructAux_reaches_start (p : Policy S) (trans : List (S × S))
    (steps : List S)
    (ht : ∀ pr ∈ trans, pr.2 ∈ steps ∧
      (pr.1 ∈ steps → rankIn steps pr.2 < rankIn steps pr.1))
    (hsome : ∀ s ∈ steps, s ≠ p.start → (aLookup trans s).isSome) :
    ∀ (fuel : Nat) (cur : S), cur ∈ steps → rankIn steps cur ≤ fuel →
      ∀ rest : List S, ∃ res,
        reconstructAux trans fuel cur (cur :: rest) = some res ∧
        res.head? = some p.start := by
  intro fuel
  induction fuel with
  | zero =>
    intro cur hcur hrank rest
    rw [reconstructAux]
    cases hl : aLookup trans cur with
    | none =>
      have hstart : cur = p.start := by
        by_contra hne
        have := hsome cur hcur hne
        rw [hl] at this
        exact absurd this (by simp)
      exact ⟨cur :: rest, rfl, by rw [hstart]; rfl⟩
    | some prev =>
      have hpr := ht (cur, prev) (aLookup_mem hl)
      have hlt : rankIn steps prev < rankIn steps cur := hpr.2 hcur
      omega
  | succ n ih =>
    intro cur hcur hrank rest
    rw [reconstructAux]
    cases hl : aLookup trans cur with
    | none =>
      have hstart : cur = p.start := by
        by_contra hne
        have := hsome cur hcur hne
        rw [hl] at this
        exact absurd this (by simp)
      exact ⟨cur :: rest, rfl, by rw [hstart]; rfl⟩
    | some prev =>
      have hpr := ht (cur, prev) (aLookup_mem hl)
      have hprev : prev ∈ steps := hpr.1
      have hprevrank : rankIn steps prev < rankIn steps cur := hpr.2 hcur
      exact ih prev hprev (by omega) (cur :: rest)

/-! ### Claim C10 -/

/-- C10: the predecessor map is acyclic and anchored at the start.
`TransInv` states that every binding points from a non-start state to an
already-explored state that produced it, with strictly decreasing
exploration ranks along chains; that invariant holds initially and is
preserved by every iteration.  Every actual write of the per-successor
step (made while `current` is explored) installs a binding from a
not-yet-explored state to the explored `current`.  Consequently, from
any explored state the backward reconstruction walk terminates after
finitely many hops (at most the length of the trace) and reaches the
start state. -/
theorem predecessor_map_acyclic (p : Policy S) :
    TransInv p (initState p) ∧
    (∀ st : LoopState S, st.q ≠ [] → QInv p st → TransInv p st →
      TransInv p (iterState p st)) ∧
    (∀ (cur : Entry S) (st : LoopState S) (succ : S), cur.id ∈ st.explored →
      (processSucc p cur st succ).transitions ≠ st.transitions →
      succ ∉ st.explored ∧ cur.id ∈ st.explored ∧
        aLookup (processSucc p cur st succ).transitions succ = some cur.id) ∧
    (∀ (st : LoopState S) (cur : S), QInv p st → TransInv p st →
      cur ∈ st.steps → ∀ fuel, st.steps.length ≤ fuel →
      ∃ res, reconstructAux st.transitions fuel cur (cur :: []) = some res ∧
        res.head? = some p.start) := by
  refine ⟨initState_TransInv p,
    fun st hq hinv htinv => iterState_TransInv p st hq hinv htinv, ?_, ?_⟩
  · intro cur st succ hcur hne
    by_cases hexp : succ ∈ st.explored
    · exact absurd (by rw [processSucc_of_explored p cur st succ hexp]) hne
    · refine ⟨hexp, hcur, ?_⟩
      rw [processSucc]
      simp only [hexp, if_false]
      by_cases hlive : succ ∈ st.links
      · simp only [hlive, if_true]
        by_cases hlt : cur.cost + p.cost cur.id succ
            < (nth st.q (st.q.findIdx (fun e => decide (e.id = succ)))).cost
        · simp only [hlt, if_true]
          exact aLookup_mapSet_self _ _ _
        · exfalso
          apply hne
          rw [processSucc]
          simp [hexp, hlive, hlt]
      · simp only [hlive, if_false]
        exact aLookup_mapSet_self _ _ _
  · intro st cur hinv htinv hcur fuel hfuel
    have hrank : rankIn st.steps cur ≤ fuel :=
      le_trans (le_of_lt (rankIn_lt_length hcur)) hfuel
    exact reconstructAux_reaches_start p st.transitions st.steps
      (fun pr hpr => ⟨(htinv.1 pr hpr).1, (htinv.1 pr hpr).2.2.2⟩)
      (fun s hs hne => htinv.2.1 s (hinv.2.2.2.1 s hs) hne)
      fuel cur hcur hrank []

/-- Witness for C10: the loop state after one iteration of the
two-state space, with its one predecessor binding `true ↦ false`. -/
theorem predecessor_map_acyclic_witness :
    ∃ res, reconstructAux twoStateLoop.transitions 1 false [false] = some res ∧
      res.head? = some twoStatePolicy.start :=
  (predecessor_map_acyclic twoStatePolicy).2.2.2 twoStateLoop false
    (by with_unfolding_all decide) (by with_unfolding_all decide)
    (by with_unfolding_all decide) 1 (by with_unfolding_all decide)

/-! ### Claim C5 -/

/-- Structural properties of a successful reconstruction walk: the
result starts at the start state, ends where the accumulator ended, and
consecutive elements are linked by the predecessor map. -/
theorem reconstructAux_props (p : Policy S) (trans : List (S × S))
    (steps : List S)
    (ht : ∀ pr ∈ trans, pr.2 ∈ steps)
    (hsome : ∀ s ∈ steps, s ≠ p.start → (aLookup trans s).isSome) :
    ∀ (fuel : Nat) (cur : S) (rest res : List S), cur ∈ steps →
      List.Chain' (fun a b => aLookup trans b = some a) (cur :: rest) →
      reconstructAux trans fuel cur (cur :: rest) = some res →
      res.head? = some p.start ∧
      res.getLast? = (cur :: rest).getLast? ∧
      List.Chain' (fun a b => aLookup trans b = some a) res := by
  intro fuel
  induction fuel with
  | zero =>
    intro cur rest res hcur hchain h
    rw [reconstructAux] at h
    cases hl : aLookup trans cur with
    | none =>
      rw [hl] at h
      cases h
      have hstart : cur = p.start := by
        by_contra hne
        have := hsome cur hcur hne
        rw [hl] at this
        exact absurd this (by simp)
      exact ⟨by rw [hstart]; rfl, rfl, hchain⟩
    | some prev =>
      rw [hl] at h
      exact absurd h (by simp)
  | succ n ih =>
    intro cur rest res hcur hchain h
    rw [reconstructAux] at h
    cases hl : aLookup trans cur with
    | none =>
      rw [hl] at h
      cases h
      have hstart : cur = p.start := by
        by_contra hne
        have := hsome cur hcur hne
        rw [hl] at this
        exact absurd this (by simp)
      exact ⟨by rw [hstart]; rfl, rfl, hchain⟩
    | some prev =>
      rw [hl] at h
      have hprev : prev ∈ steps := ht (cur, prev) (aLookup_mem hl)
      have hchain' : List.Chain'
          (fun a b => aLookup trans b = some a) (prev :: cur :: rest) :=
        List.chain'_cons.2 ⟨hl, hchain⟩
      obtain ⟨hh, hlast, hc⟩ := ih prev (cur :: rest) res hprev hchain' h
      exact ⟨hh, by rw [hlast, List.getLast?_cons_cons], hc⟩

/-- C5: whenever `Search` returns with success, the returned path is
the backward walk, reversed, of the run's own predecessor map — the
`transitions` map held at the moment of success.  The successful run is
pinned to its final iteration: `k` is the first iteration whose popped
entry satisfies the goal predicate (every earlier iteration pops a
non-goal state from a nonempty queue), the returned explored trace is
exactly that iteration's trace, and its last element is the popped goal
state.  The path is exactly what the reconstruction loop computes from
that goal state over that iteration's `transitions` map, its first
element is the start state (which has no binding in that map), its last
element is the goal state, and every consecutive pair
`path[i], path[i+1]` satisfies `transitions[path[i+1]] = path[i]`. -/
theorem path_reconstruction_correct (p : Policy S) :
    ∀ (fuel : Nat) (st : LoopState S) (r : SearchResult S),
      QInv p st → TransInv p st → searchAux p fuel st = some r →
      r.err = none →
      ∃ (k fuel' : Nat),
        (∀ j, j < k → (stateAt p st j).q ≠ [] ∧
          p.finish (popState p (stateAt p st j)).1.id = false) ∧
        (stateAt p st k).q ≠ [] ∧
        p.finish (popState p (stateAt p st k)).1.id = true ∧
        r.steps = (popState p (stateAt p st k)).2.steps ∧
        r.steps.getLast? = some (popState p (stateAt p st k)).1.id ∧
        reconstructAux (popState p (stateAt p st k)).2.transitions fuel'
          (popState p (stateAt p st k)).1.id
          [(popState p (stateAt p st k)).1.id] = some r.path ∧
        r.path.head? = some p.start ∧
        r.path.getLast? = some (popState p (stateAt p st k)).1.id ∧
        List.Chain' (fun a b =>
          aLookup (popState p (stateAt p st k)).2.transitions b = some a)
          r.path ∧
        aLookup (popState p (stateAt p st k)).2.transitions p.start
          = none := by
  intro fuel
  induction fuel with
  | zero =>
    intro st r _ _ h _
    exact absurd h (by simp [searchAux_zero])
  | succ n ih =>
    intro st r hinv htinv h herr
    rw [searchAux] at h
    by_cases hq : st.q.isEmpty
    · simp only [hq, if_true, Option.some.injEq] at h
      subst h
      exact absurd herr (by simp)
    · simp only [hq, Bool.false_eq_true, if_false] at h
      have hqne : st.q ≠ [] := by
        intro hcon
        rw [hcon] at hq
        exact hq rfl
      obtain ⟨hidperm, hcurne, hexp1, hsteps1, htrans1, hnodup1, hdisj1, hes1,
        hse1, hsen1, hlp1, hstart1⟩ :=
        popState_spec p st (popState p st).1 (popState p st).2 rfl hqne hinv
      have htinv1 := popState_TransInv p st hqne hinv htinv
      by_cases hf : p.finish (popState p st).1.id = true
      · simp only [hf, if_true] at h
        cases hrec : reconstructAux (popState p st).2.transitions n
            (popState p st).1.id [(popState p st).1.id] with
        | none => rw [hrec] at h; exact absurd h (by simp)
        | some path =>
          rw [hrec] at h
          simp only [Option.map_some', Option.some.injEq] at h
          subst h
          have hcurstep : (popState p st).1.id ∈ (popState p st).2.steps := by
            rw [hsteps1]
            exact List.mem_append_right _ (List.mem_singleton_self _)
          have hprops := reconstructAux_props p (popState p st).2.transitions
            (popState p st).2.steps
            (fun pr hpr => (htinv1.1 pr hpr).1)
            (fun s hs hne => htinv1.2.1 s (hse1 s hs) hne)
            n (popState p st).1.id [] path hcurstep
            (List.chain'_singleton _) hrec
          refine ⟨0, n, ?_, hqne, hf, rfl, ?_, hrec, hprops.1, ?_,
            hprops.2.2, ?_⟩
          · intro j hj
            exact absurd hj (Nat.not_lt_zero j)
          · show ((popState p st).2.steps).getLast? = _
            rw [hsteps1]
            exact List.getLast?_concat _
          · rw [hprops.2.1]
            rfl
          · show aLookup (popState p st).2.transitions p.start = none
            cases hl : aLookup (popState p st).2.transitions p.start with
            | none => rfl
            | some v =>
              have := (htinv1.1 (p.start, v) (aLookup_mem hl)).2.1
              exact absurd rfl this
      · simp only [hf, Bool.false_eq_true, if_false] at h
        obtain ⟨k, fuel', hpre, hqk, hfk, hstepsk, hlastk, hreck, hheadk,
          hplastk, hchaink, hstartk⟩ :=
          ih (iterState p st) r (iterState_QInv p st hqne hinv)
            (iterState_TransInv p st hqne hinv htinv) h herr
        have hiter : ∀ j, stateAt p st (j + 1) = stateAt p (iterState p st) j :=
          fun j => Function.iterate_succ_apply (iterState p) j st
        refine ⟨k + 1, fuel', ?_, ?_, ?_, ?_, ?_, ?_, hheadk, ?_, ?_, ?_⟩
        · intro j hj
          cases j with
          | zero => exact ⟨hqne, Bool.eq_false_iff.mpr hf⟩
          | succ m =>
            rw [hiter m]
            exact hpre m (by omega)
        · rw [hiter k]; exact hqk
        · rw [hiter k]; exact hfk
        · rw [hiter k]; exact hstepsk
        · rw [hiter k]; exact hlastk
        · rw [hiter k]; exact hreck
        · rw [hiter k]; exact hplastk
        · rw [hiter k]; exact hchaink
        · rw [hiter k]; exact hstartk

/-- Witness for C5 on the diamond run: the successful run from the
initial state is pinned to its final iteration `k`, and the returned
path `[A, B, D]` is the reversed backward walk of that iteration's own
`transitions` map from the popped goal state. -/
theorem path_reconstruction_correct_witness :
    ∃ (k fuel' : Nat),
      (∀ j, j < k →
        (stateAt diamondPolicy (initState diamondPolicy) j).q ≠ [] ∧
        diamondPolicy.finish (popState diamondPolicy
          (stateAt diamondPolicy (initState diamondPolicy) j)).1.id = false) ∧
      (stateAt diamondPolicy (initState diamondPolicy) k).q ≠ [] ∧
      diamondPolicy.finish (popState diamondPolicy
        (stateAt diamondPolicy (initState diamondPolicy) k)).1.id = true ∧
      [Node.A, Node.B, Node.C, Node.D] = (popState diamondPolicy
        (stateAt diamondPolicy (initState diamondPolicy) k)).2.steps ∧
      [Node.A, Node.B, Node.C, Node.D].getLast? = some (popState diamondPolicy
        (stateAt diamondPolicy (initState diamondPolicy) k)).1.id ∧
      reconstructAux (popState diamondPolicy
          (stateAt diamondPolicy (initState diamondPolicy) k)).2.transitions
        fuel'
        (popState diamondPolicy
          (stateAt diamondPolicy (initState diamondPolicy) k)).1.id
        [(popState diamondPolicy
          (stateAt diamondPolicy (initState diamondPolicy) k)).1.id]
        = some [Node.A, Node.B, Node.D] ∧
      [Node.A, Node.B, Node.D].head? = some diamondPolicy.start ∧
      [Node.A, Node.B, Node.D].getLast? = some (popState diamondPolicy
        (stateAt diamondPolicy (initState diamondPolicy) k)).1.id ∧
      List.Chain' (fun a b => aLookup (popState diamondPolicy
          (stateAt diamondPolicy (initState diamondPolicy) k)).2.transitions b
          = some a)
        [Node.A, Node.B, Node.D] ∧
      aLookup (popState diamondPolicy
          (stateAt diamondPolicy (initState diamondPolicy) k)).2.transitions
        diamondPolicy.start = none :=
  path_reconstruction_correct diamondPolicy 6 (initState diamondPolicy)
    ⟨[Node.A, Node.B, Node.D], [Node.A, Node.B, Node.C, Node.D], none⟩
    (by with_unfolding_all decide) (by with_unfolding_all decide)
    (by with_unfolding_all decide) rfl

theorem initState_RInv (p : Policy S) : RInv p (initState p) := by
  refine ⟨?_, ?_, ?_⟩
  · intro s hs
    exact absurd hs (by simp [initState])
  · intro s hs
    rw [initState, qIds, heapInit_singleton] at hs
    simp at hs
    rw [hs]
    exact Reach.start
  · intro s hs
    exact absurd hs (by simp [initState])

theorem iterState_RInv (p : Policy S) (st : LoopState S) (hq : st.q ≠ [])
    (hinv : QInv p st) (hrinv : RInv p st) : RInv p (iterState p st) := by
  obtain ⟨hidperm, hcurne, hexp1, hsteps1, htrans1, hnodup1, hdisj1, hes1, hse1,
    hsen1, hlp1, hstart1⟩ :=
    popState_spec p st (popState p st).1 (popState p st).2 rfl hq hinv
  obtain ⟨r1, r2, r3⟩ := hrinv
  have hcurmem : (popState p st).1.id ∈ qIds st :=
    (hidperm.mem_iff).1 (List.mem_cons_self _ _)
  have hcurreach : Reach p (popState p st).1.id := r2 _ hcurmem
  have hsub1 : ∀ s ∈ qIds (popState p st).2, s ∈ qIds st := fun s hs =>
    (hidperm.mem_iff).1 (List.mem_cons_of_mem _ hs)
  obtain ⟨_, _, _, ihd, ihe, ihf, _, _, _⟩ :=
    foldl_processSucc_spec p (popState p st).1
      (p.successors (popState p st).1.id) (popState p st).2 hnodup1 hlp1 hdisj1
  have hexpE : (iterState p st).explored = (popState p st).2.explored :=
    expand_explored p (popState p st).1 (popState p st).2
  refine ⟨?_, ?_, ?_⟩
  · intro s hs
    rw [hexpE, hexp1] at hs
    rcases List.mem_append.1 hs with hs | hs
    · exact r1 s hs
    · rcases List.mem_singleton.1 hs with rfl
      exact hcurreach
  · intro s hs
    rcases ihe s hs with hs' | hs'
    · exact r2 s (hsub1 s hs')
    · exact Reach.step hcurreach hs'
  · intro s hs t ht
    rw [hexpE, hexp1] at hs
    rcases List.mem_append.1 hs with hs | hs
    · rcases r3 s hs t ht with htt | htt
      · left
        rw [hexpE, hexp1]
        exact List.mem_append_left _ htt
      · rcases (hidperm.mem_iff).2 htt |> List.mem_cons.1 with heq | htt'
        · left
          rw [hexpE, hexp1]
          exact List.mem_append_right _ (by rw [heq]; exact List.mem_singleton_self _)
        · right
          exact ihd t htt'
    · rcases List.mem_singleton.1 hs with rfl
      rcases ihf t ht with htt | htt
      · left
        rw [hexpE]
        exact htt
      · right
        exact htt

/-- Reachable states stay inside any successor-closed superset of the
start state. -/
theorem reach_subset (p : Policy S) (R : List S) (hstart : p.start ∈ R)
    (hclosed : ∀ s ∈ R, ∀ t ∈ p.successors s, t ∈ R) :
    ∀ s, Reach p s → s ∈ R := by
  intro s h
  induction h with
  | start => exact hstart
  | step hr hmem ih => exact hclosed _ ih _ hmem

/-- The core termination and exhaustiveness argument: with enough fuel
(one more than the number of reachable states), a search whose
reachable states never satisfy the goal returns `NotFound` after
exploring exactly the reachable states, once each. -/
theorem searchAux_exhausts (p : Policy S) (R : List S) (hnodup : R.Nodup)
    (hstart : p.start ∈ R)
    (hclosed : ∀ s ∈ R, ∀ t ∈ p.successors s, t ∈ R)
    (hnogoal : ∀ s ∈ R, p.finish s = false) :
    ∀ (k : Nat) (st : LoopState S), QInv p st → RInv p st →
      R.length + 1 ≤ k + st.steps.length →
      ∃ steps, searchAux p k st = some ⟨[], steps, some GoError.notFound⟩ ∧
        steps.Nodup ∧ (∀ s, s ∈ steps ↔ Reach p s) := by
  intro k
  induction k with
  | zero =>
    intro st hinv hrinv hbudget
    exfalso
    have hsub : st.steps ⊆ R := by
      intro s hs
      exact reach_subset p R hstart hclosed s
        (hrinv.1 s (hinv.2.2.2.1 s hs))
    have hlen : st.steps.length ≤ R.length :=
      List.Subperm.length_le (List.Nodup.subperm hinv.2.2.2.2.1 hsub)
    omega
  | succ n ih =>
    intro st hinv hrinv hbudget
    rw [searchAux]
    by_cases hq : st.q.isEmpty
    · rw [if_pos hq]
      refine ⟨st.steps, rfl, hinv.2.2.2.2.1, ?_⟩
      have hqnil : st.q = [] := by
        cases hqc : st.q with
        | nil => rfl
        | cons a l => rw [hqc] at hq; exact absurd hq (by simp)
      have hqids : qIds st = [] := by rw [qIds, hqnil]; rfl
      have hstartmem : p.start ∈ st.explored := by
        rcases hinv.2.2.2.2.2 with ⟨_, hst⟩ | ⟨_, hq0, _⟩
        · exact hst
        · rw [hq0] at hqnil
          exact absurd hqnil (by simp)
      intro s
      constructor
      · intro hs
        exact hrinv.1 s (hinv.2.2.2.1 s hs)
      · intro hreach
        have hexp : s ∈ st.explored := by
          induction hreach with
          | start => exact hstartmem
          | step hr hmem ihr =>
            rcases hrinv.2.2 _ ihr _ hmem with h | h
            · exact h
            · rw [hqids] at h
              exact absurd h (by simp)
        exact hinv.2.2.1 s hexp
    · rw [if_neg hq]
      have hqne : st.q ≠ [] := by
        intro hcon
        rw [hcon] at hq
        exact hq rfl
      obtain ⟨hidperm, hcurne, hexp1, hsteps1, _, _, _, _, _, _, _, _⟩ :=
        popState_spec p st (popState p st).1 (popState p st).2 rfl hqne hinv
      have hcurmem : (popState p st).1.id ∈ qIds st :=
        (hidperm.mem_iff).1 (List.mem_cons_self _ _)
      have hcurR : (popState p st).1.id ∈ R :=
        reach_subset p R hstart hclosed _ (hrinv.2.1 _ hcurmem)
      have hf : p.finish (popState p st).1.id = false := hnogoal _ hcurR
      simp only [hq, Bool.false_eq_true, if_false, hf]
      have hsteps' : (iterState p st).steps
          = st.steps ++ [(popState p st).1.id] := by
        rw [show (iterState p st).steps = (popState p st).2.steps from
          expand_steps p (popState p st).1 (popState p st).2, hsteps1]
      apply ih (iterState p st) (iterState_QInv p st hqne hinv)
        (iterState_RInv p st hqne hinv hrinv)
      rw [hsteps', List.length_append]
      simp only [List.length_singleton]
      omega

/-- C2: unreachable goal.  For a policy whose reachable state space is
finite (contained in a duplicate-free, successor-closed list `R` of
states on which the goal predicate never holds), `Search` terminates
within `|R| + 1` loop iterations, returns the `ErrNotFound` outcome
with an empty path, and its explored trace lists every reachable state
exactly once. -/
theorem unreachable_goal_exhausts (p : Policy S) (R : List S)
    (hnodup : R.Nodup) (hstart : p.start ∈ R)
    (hclosed : ∀ s ∈ R, ∀ t ∈ p.successors s, t ∈ R)
    (hnogoal : ∀ s ∈ R, p.finish s = false) :
    ∀ fuel, R.length + 1 ≤ fuel →
      ∃ steps, search p fuel = some ⟨[], steps, some GoError.notFound⟩ ∧
        steps.Nodup ∧ (∀ s, s ∈ steps ↔ Reach p s) := by
  intro fuel hfuel
  apply searchAux_exhausts p R hnodup hstart hclosed hnogoal fuel (initState p)
    (initState_QInv p) (initState_RInv p)
  rw [initState]
  simpa using hfuel

/-- Witness for C2 on the two-state space with unreachable goal. -/
theorem unreachable_goal_exhausts_witness :
    ∃ steps, search twoStatePolicy 3 =
        some ⟨[], steps, some GoError.notFound⟩ ∧
      steps.Nodup ∧ (∀ s, s ∈ steps ↔ Reach twoStatePolicy s) :=
  unreachable_goal_exhausts twoStatePolicy [false, true]
    (by decide) (by decide)
    (by with_unfolding_all decide) (by decide) 3 (by decide)

end AStar
